import Mathlib

/-!
Verification of the `CachingAllocator` (binned caching device-memory allocator)
from the repository source.  The allocator keeps Blocks (raw substrate
allocations) subdivided into chains of Pieces; free Pieces are filed into
size-class Bins, allocation searches the Bins, deallocation coalesces
physically adjacent free Pieces, and a reclamation pass releases fully idle
Blocks.

Modelling conventions (shallow embedding):
* Device addresses are `Nat`; the null pointer is `0`.
* A Block's doubly linked `prev`/`next` Piece chain (from `start_piece`) is
  represented as a `List Piece` in physical order; `prev`/`next` of the source
  are list adjacency.
* The source's `bins_` (a `std::set<Piece*, PieceCmp>` per bin) is derived
  state: `InsertPiece2Bin`/`RemovePieceFromBin` keep the set contents in exact
  lockstep with the `is_free`/`bin_num` fields of the Pieces, so bin `b`'s set
  is the set of free Pieces whose `bin_num = b`, iterated in the `PieceCmp`
  order `(size, ptr)`.  `binPieces` below reconstructs exactly that.
* The source's `ptr2piece_` map is likewise derived: `MarkPiece`/`UnMarkPiece`
  are called exactly when a Piece enters/leaves some Block's chain, so the map
  is (address ↦ Piece) over all Pieces of all chains.
* The descriptor recycle list (`recycle_piece_list_`, `AllocatePiece`,
  `DeallocatePiece`) only recycles descriptor storage and never affects which
  logical Pieces exist; it is not modelled.
* `cudaMalloc` is the substrate: its result is passed in as an explicit
  argument `mem_ptr` (`0` models a failed/NULL allocation, matching the
  source's `if (mem_ptr == nullptr) return false`).
* `RV_CHECK` failures abort.  Internal `RV_CHECK`s that merely assert
  invariants which are proved below as theorems (e.g. `RV_CHECK(piece->is_free)`
  on a Piece taken out of a bin, `RV_CHECK(IsAlignedSize(...))`, the
  adjacency checks in `MergeNeighbourFreePiece`, and the `CHECK_EQ`s of the
  garbage collector) are omitted from the embedding; the checks that decide
  externally visible behaviour of `Deallocate` are modelled by the
  `DeallocResult` outcomes below.
-/

/-- Source: `kInvalidBinNum = -1`, the sentinel stored in `Piece::bin_num`
while a Piece is not filed in any bin. -/
def kInvalidBinNum : Int := -1

/-- Source: `kBinNumSize = 20`, the number of size-class bins. -/
def kBinNumSize : Nat := 20

/-- Source: `kCudaAlignSize = 512`. -/
def kCudaAlignSize : Nat := 512

/-- Source: `kCudaMemAllocAlignSize = 512`. -/
def kCudaMemAllocAlignSize : Nat := 512

/-- Modelled from the spec: `kAlignSize` is used by `BinSize4BinNum` and
`BinNum4BinSize` but its definition lives in a header that is not part of the
provided sources.  The spec fixes the alignment unit at 512, and the source
file itself says so in the comment above `Bin` ("The size of the smallest bin
is 512 ... 512 is kCudaMemAllocAlignSize") and hard-codes the matching shift
`>> 9` in `BinNum4BinSize`. -/
def kAlignSize : Nat := 512

/-- Source: `kPieceSplitThreshold = 128 << 20` (128 MiB). -/
def kPieceSplitThreshold : Nat := 128 <<< 20

/-- Source: `RoundUp(n, val) = (n + val - 1) / val * val`. -/
def RoundUp (n val : Nat) : Nat := (n + val - 1) / val * val

/-- Source: `MemAlignedBytes(bytes, alignment) = RoundUp(bytes, alignment)`. -/
def MemAlignedBytes (bytes alignment : Nat) : Nat := RoundUp bytes alignment

/-- Source: `IsAlignedSize(size, alignment) = (size % alignment == 0)`. -/
def IsAlignedSize (size alignment : Nat) : Bool := size % alignment == 0

/-- Source: `struct Piece`.  `prev`/`next` are represented by list adjacency
in the containing Block's chain, not stored in the Piece. -/
structure Piece where
  size : Nat
  ptr : Nat
  is_free : Bool
  bin_num : Int
deriving Repr, DecidableEq

/-- Source: `struct Block` with `size`, `ptr` and the Piece chain hanging off
`start_piece`. -/
structure Block where
  size : Nat
  ptr : Nat
  chain : List Piece
deriving Repr, DecidableEq

/-- Source: the mutable state of `CachingAllocator`: `total_memory_bytes_` and
`mem_ptr2block_` (represented as a list of Blocks).  `bins_` and `ptr2piece_`
are derived (see the module docstring). -/
structure AllocState where
  total_memory_bytes : Nat
  blocks : List Block
deriving Repr, DecidableEq

/-- Source: `BinSize4BinNum(bin_num) = kAlignSize << bin_num`. -/
def BinSize4BinNum (bin_num : Nat) : Nat := kAlignSize <<< bin_num

/-- Fuel-bounded floor-log2: `log2fuel f n` equals `Nat.log2 n` whenever
`n < 2^f` (proved below).  The structural fuel keeps the function reducible
by kernel evaluation, which `Nat.log2`'s well-founded recursion is not. -/
def log2fuel : Nat → Nat → Nat
  | 0, _ => 0
  | f + 1, n => if 2 ≤ n then log2fuel f (n / 2) + 1 else 0

/-- Number of leading zeros of a value in a 64-bit word, mirroring
`__builtin_clzll` on its defined range `1 ≤ v < 2^64` (where
`log2fuel 64 v = Nat.log2 v` is the index of the highest set bit). -/
def clzll (v : Nat) : Nat := 64 - (log2fuel 64 v + 1)

/-- Source: `BinNum4BinSize(size) = min(kBinNumSize - 1,
63 ^ __builtin_clzll(max(size, kAlignSize) >> 9))`. -/
def BinNum4BinSize (size : Nat) : Nat :=
  min (kBinNumSize - 1) (63 ^^^ clzll (max size kAlignSize >>> 9))

/-- Source: `Bin::PieceCmp` orders a bin's set by `(size, ptr)` strictly;
`pieceLE` is the induced total preorder used to present the set in iteration
order. -/
def pieceLE (a b : Piece) : Bool :=
  a.size < b.size || (a.size == b.size && a.ptr ≤ b.ptr)

/-- All Pieces of all Block chains, i.e. the contents of the derived
`ptr2piece_` map. -/
def allPieces (s : AllocState) : List Piece := s.blocks.flatMap (·.chain)

/-- Insert a Piece into a `pieceLE`-sorted list, keeping it sorted. -/
def insertByLE (x : Piece) : List Piece → List Piece
  | [] => [x]
  | y :: ys => if pieceLE x y then x :: y :: ys else y :: insertByLE x ys

/-- Sort a list of Pieces by `pieceLE` (insertion sort; structurally
recursive so that concrete states evaluate by kernel reduction). -/
def sortByLE : List Piece → List Piece
  | [] => []
  | x :: xs => insertByLE x (sortByLE xs)

/-- The derived contents of `bins_[bin].pieces` in `PieceCmp` iteration order:
the free Pieces filed under `bin_num = bin`, sorted by `(size, ptr)`. -/
def binPieces (s : AllocState) (bin : Nat) : List Piece :=
  sortByLE ((allPieces s).filter (fun p => p.is_free && p.bin_num == (bin : Int)))

/-- The Piece chosen by the two nested loops of `FindPiece`: scan bins from
`BinNum4BinSize(aligned_size)` up to `kBinNumSize - 1`; in each bin walk the
set in `(size, ptr)` order and take the first Piece with
`size >= aligned_size`. -/
def findPieceChoice (s : AllocState) (aligned_size : Nat) : Option Piece :=
  (List.range' (BinNum4BinSize aligned_size) (kBinNumSize - BinNum4BinSize aligned_size)).findSome?
    (fun b => (binPieces s b).find? (fun p => decide (aligned_size ≤ p.size)))

/-- Source: the split test in `FindPiece`:
`piece->size >= aligned_size * 2 || piece->size - aligned_size >= kPieceSplitThreshold`. -/
def splitCond (pieceSize aligned_size : Nat) : Bool :=
  decide (aligned_size * 2 ≤ pieceSize) || decide (kPieceSplitThreshold ≤ pieceSize - aligned_size)

/-- The chain surgery performed by `FindPiece` on the chosen Piece (located by
its address): take it out of its bin (`bin_num := kInvalidBinNum`), mark it
in-use, and if the split test fires shrink it to `aligned_size` and splice a
new free Piece covering the remainder immediately after it; the new Piece is
filed into its bin (`InsertPiece2Bin`, which sets
`bin_num = BinNum4BinSize(size)`) and registered in the (derived) address
map. -/
def allocChain (aligned_size tgt : Nat) : List Piece → List Piece
  | [] => []
  | p :: rest =>
    if p.ptr = tgt then
      if splitCond p.size aligned_size then
        { p with size := aligned_size, is_free := false, bin_num := kInvalidBinNum } ::
        { size := p.size - aligned_size, ptr := p.ptr + aligned_size, is_free := true,
          bin_num := (BinNum4BinSize (p.size - aligned_size) : Int) } :: rest
      else
        { p with is_free := false, bin_num := kInvalidBinNum } :: rest
    else p :: allocChain aligned_size tgt rest

/-- Apply `allocChain` inside the first Block whose chain holds a Piece at the
target address (Piece descriptors are unique in the source, identified by
pointer identity). -/
def applyAllocBlocks (aligned_size tgt : Nat) : List Block → List Block
  | [] => []
  | b :: bs =>
    if b.chain.any (fun p => p.ptr == tgt) then
      { b with chain := allocChain aligned_size tgt b.chain } :: bs
    else
      b :: applyAllocBlocks aligned_size tgt bs

/-- Source: `FindPiece(aligned_size)`: returns the chosen Piece's address and
the updated state, or `none` when no bin yields a fitting free Piece. -/
def FindPiece (s : AllocState) (aligned_size : Nat) : Option (Nat × AllocState) :=
  match findPieceChoice s aligned_size with
  | none => none
  | some p => some (p.ptr, { s with blocks := applyAllocBlocks aligned_size p.ptr s.blocks })

/-- Source: `AllocateBlockToExtendTotalMem(aligned_size)`: compute the growth
tier, align it, bail out if the result could not cover the request or the
substrate returned NULL, otherwise register one new Block holding a single
free Piece spanning the whole allocation. -/
def AllocateBlockToExtendTotalMem (s : AllocState) (aligned_size mem_ptr : Nat) :
    Bool × AllocState :=
  let allocate_bytes : Nat :=
    if aligned_size < 1048576 then 2097152
    else if aligned_size < 10485760 then 20971520
    else RoundUp aligned_size 2097152
  let final_allocate_bytes := MemAlignedBytes allocate_bytes kCudaAlignSize
  if final_allocate_bytes < aligned_size then (false, s)
  else if mem_ptr = 0 then (false, s)
  else
    let piece : Piece :=
      { size := final_allocate_bytes, ptr := mem_ptr, is_free := true,
        bin_num := (BinNum4BinSize final_allocate_bytes : Int) }
    (true,
      { total_memory_bytes := s.total_memory_bytes + final_allocate_bytes,
        blocks := s.blocks ++ [{ size := final_allocate_bytes, ptr := mem_ptr, chain := [piece] }] })

/-- Source: a Block is idle for the garbage collector when every Piece in its
chain is free. -/
def blockIdle (b : Block) : Bool := b.chain.all (·.is_free)

/-- Source: `DeallocateFreeBlockForGarbageCollection()`: sum the sizes of idle
Blocks, subtract from `total_memory_bytes_`, and (only when something was
found) erase each idle Block together with all its Pieces (removed from their
bins and from the derived address map); returns whether anything was
released. -/
def DeallocateFreeBlockForGarbageCollection (s : AllocState) : Bool × AllocState :=
  let total_free_bytes := ((s.blocks.filter blockIdle).map (·.size)).sum
  let bs :=
    if 0 < total_free_bytes then s.blocks.filter (fun b => !blockIdle b) else s.blocks
  (decide (0 < total_free_bytes),
    { total_memory_bytes := s.total_memory_bytes - total_free_bytes, blocks := bs })

/-- Result of `DoAllocate`: `success ptr s` returns a pointer (`none` models
returning `nullptr` for a zero-size request) with the post state;
`oom` models the aborting `RV_CHECK(piece != nullptr)` after growth failed to
produce a fitting Piece (a hard out-of-memory failure). -/
inductive AllocResult
  | success (ptr : Option Nat) (s : AllocState)
  | oom
deriving Repr, DecidableEq

/-- Source: `DoAllocate(size)`: zero-size requests return `nullptr` untouched;
otherwise align the request, search the bins, on a miss extend total memory by
exactly one Block and retry the search exactly once, and fail hard
(`RV_CHECK(piece != nullptr)`) if still unsatisfied. -/
def DoAllocate (s : AllocState) (size mem_ptr : Nat) : AllocResult :=
  if size = 0 then .success none s
  else
    let aligned_size := MemAlignedBytes size kCudaAlignSize
    match FindPiece s aligned_size with
    | some (ptr, s') => .success (some ptr) s'
    | none =>
      match AllocateBlockToExtendTotalMem s aligned_size mem_ptr with
      | (true, s') =>
        match FindPiece s' aligned_size with
        | some (ptr, s'') => .success (some ptr) s''
        | none => .oom
      | (false, _) => .oom

/-- Locate a Piece by address in a chain, returning its index and the Piece
itself (first match; descriptors are unique by address in the source). -/
def findPieceAt : List Piece → Nat → Option (Nat × Piece)
  | [], _ => none
  | p :: rest, tgt =>
    if p.ptr = tgt then some (0, p)
    else (findPieceAt rest tgt).map (fun ip => (ip.1 + 1, ip.2))

/-- The first half of the coalescing in `Deallocate`: the freed Piece `x`
absorbs its physical `next` neighbour when that neighbour is free
(`RemovePieceFromBin(next)` then `MergeNeighbourFreePiece(piece, next)`; the
absorbed Piece leaves the chain, the derived address map, and its bin). -/
def freeMergeNext (x : Piece) (post : List Piece) : Piece × List Piece :=
  match post with
  | r :: rest =>
    if r.is_free then ({ x with size := x.size + r.size }, rest) else (x, post)
  | [] => (x, [])

/-- The second half of the coalescing in `Deallocate`: when the physical
`prev` neighbour is free it absorbs the current Piece
(`RemovePieceFromBin(prev)` then `MergeNeighbourFreePiece(prev, piece)`): the
lower-address Piece survives carrying the summed size. -/
def mergePrevStep (pre : List Piece) (y : Piece) : List Piece × Piece :=
  match pre.getLast? with
  | some l =>
    if l.is_free then (pre.dropLast, { l with size := l.size + y.size }) else (pre, y)
  | none => (pre, y)

/-- Source: `InsertPiece2Bin` files a free Piece under
`bin_num = BinNum4BinSize(size)`. -/
def fileIntoBin (x : Piece) : Piece := { x with bin_num := (BinNum4BinSize x.size : Int) }

/-- The full chain surgery of `Deallocate` around the freed Piece `x`
(`chain = pre ++ x :: post`): mark it free, merge with a free `next`, then
with a free `prev`, and file the single survivor into the bin matching its
final size. -/
def deallocCore (pre : List Piece) (x : Piece) (post : List Piece) : List Piece :=
  let yp := freeMergeNext { x with is_free := true } post
  let pz := mergePrevStep pre yp.1
  pz.1 ++ fileIntoBin pz.2 :: yp.2

/-- Outcome of looking up and freeing an address inside the Block list. -/
inductive BlocksDealloc
  | notFound
  | doubleFree
  | ok (bs : List Block)
deriving Repr, DecidableEq

/-- Walk the Blocks; in the first Block holding a Piece at the target address,
check the double-free guard and perform the coalescing surgery. -/
def deallocBlocks (tgt : Nat) : List Block → BlocksDealloc
  | [] => .notFound
  | b :: bs =>
    match findPieceAt b.chain tgt with
    | some (i, x) =>
      if x.is_free then .doubleFree
      else .ok ({ b with chain := deallocCore (b.chain.take i) x (b.chain.drop (i + 1)) } :: bs)
    | none =>
      match deallocBlocks tgt bs with
      | .notFound => .notFound
      | .doubleFree => .doubleFree
      | .ok bs' => .ok (b :: bs')

/-- Result of `Deallocate`.  `ok` is normal completion; `rvFail` is the
aborting `RV_CHECK(!piece->is_free)` (loud double-free failure; modelled from
the spec: `RV_CHECK` is declared in a header outside the provided sources and
is the repository's abort-on-false check); `ub` marks the path where
`ptr2piece_.find(mem_ptr)` misses and the source dereferences the end iterator
(`it->second`) without any check — undefined behaviour, not a loud failure. -/
inductive DeallocResult
  | ok (s : AllocState)
  | rvFail
  | ub
deriving Repr, DecidableEq

/-- Source: `Deallocate(mem_ptr)`: no-op on null; look the Piece up by address
(unchecked iterator dereference on a miss!); abort on double free
(`RV_CHECK(!piece->is_free)`); otherwise mark free, coalesce with free
neighbours (lower address survives) and file the survivor into its bin. -/
def Deallocate (s : AllocState) (mem_ptr : Nat) : DeallocResult :=
  if mem_ptr = 0 then .ok s
  else
    match deallocBlocks mem_ptr s.blocks with
    | .notFound => .ub
    | .doubleFree => .rvFail
    | .ok bs => .ok { s with blocks := bs }

/-! ### State invariants (matching the spec's invariant list) -/

/-- Two physically adjacent Pieces are never both free. -/
def FreeSep (p q : Piece) : Prop := p.is_free = false ∨ q.is_free = false

/-- No two adjacent Pieces of a chain are both free (spec invariant 3,
"coalescing is mandatory, not lazy"). -/
def noAdjFree (c : List Piece) : Prop := List.Chain' FreeSep c

/-- A chain tiles the address range starting at `a`: each Piece starts where
the previous one ended. -/
def tilesFromB : Nat → List Piece → Bool
  | _, [] => true
  | a, p :: rest => (p.ptr == a) && tilesFromB (a + p.size) rest

/-- Every Piece of every chain has a positive size that is a multiple of the
512-byte alignment unit. -/
def PiecesAligned (s : AllocState) : Prop :=
  ∀ b ∈ s.blocks, ∀ p ∈ b.chain, 0 < p.size ∧ p.size % kCudaAlignSize = 0

/-- Every free Piece is filed under the bin of its size (spec invariant 2). -/
def BinsOk (s : AllocState) : Prop :=
  ∀ b ∈ s.blocks, ∀ p ∈ b.chain, p.is_free = true →
    p.bin_num = (BinNum4BinSize p.size : Int)

/-- No chain of any Block has two adjacent free Pieces. -/
def NoAdjFreeState (s : AllocState) : Prop := ∀ b ∈ s.blocks, noAdjFree b.chain

/-- Piece addresses are globally distinct (the source's `ptr2piece_` map keys,
whose uniqueness `MarkPiece` asserts via `RV_CHECK(emplace(...).second)`). -/
def PtrsNodup (s : AllocState) : Prop := ((allPieces s).map (·.ptr)).Nodup

/-- Each Block's chain starts at the Block base and tiles it gaplessly (spec
invariant 4). -/
def BlocksTiled (s : AllocState) : Prop :=
  ∀ b ∈ s.blocks, tilesFromB b.ptr b.chain = true

/-- `total_memory_bytes_` equals the sum of the Block sizes (spec
invariant 5). -/
def TotalOk (s : AllocState) : Prop :=
  s.total_memory_bytes = (s.blocks.map (·.size)).sum

instance : DecidableRel FreeSep := fun p q =>
  inferInstanceAs (Decidable (p.is_free = false ∨ q.is_free = false))

/-- Executable check for `noAdjFree`. -/
def noAdjFreeB : List Piece → Bool
  | p :: q :: rest => (!p.is_free || !q.is_free) && noAdjFreeB (q :: rest)
  | _ => true

theorem noAdjFreeB_iff : ∀ c : List Piece, (noAdjFreeB c = true ↔ noAdjFree c)
  | [] => by simp [noAdjFreeB, noAdjFree]
  | [p] => by simp [noAdjFreeB, noAdjFree]
  | p :: q :: rest => by
    have ih := noAdjFreeB_iff (q :: rest)
    show ((!p.is_free || !q.is_free) && noAdjFreeB (q :: rest)) = true ↔ _
    rw [Bool.and_eq_true, Bool.or_eq_true, ih]
    unfold noAdjFree
    rw [List.chain'_cons]
    unfold FreeSep
    simp only [Bool.not_eq_true']

instance (c : List Piece) : Decidable (noAdjFree c) :=
  decidable_of_iff _ (noAdjFreeB_iff c)

instance (s : AllocState) : Decidable (NoAdjFreeState s) :=
  inferInstanceAs (Decidable (∀ b ∈ s.blocks, noAdjFree b.chain))

instance (s : AllocState) : Decidable (PiecesAligned s) :=
  inferInstanceAs (Decidable (∀ b ∈ s.blocks, ∀ p ∈ b.chain,
    0 < p.size ∧ p.size % kCudaAlignSize = 0))

instance (s : AllocState) : Decidable (BinsOk s) :=
  inferInstanceAs (Decidable (∀ b ∈ s.blocks, ∀ p ∈ b.chain, p.is_free = true →
    p.bin_num = (BinNum4BinSize p.size : Int)))

instance (s : AllocState) : Decidable (PtrsNodup s) :=
  inferInstanceAs (Decidable (((allPieces s).map (fun p : Piece => p.ptr)).Nodup))

instance (s : AllocState) : Decidable (BlocksTiled s) :=
  inferInstanceAs (Decidable (∀ b ∈ s.blocks, tilesFromB b.ptr b.chain = true))

instance (s : AllocState) : Decidable (TotalOk s) :=
  inferInstanceAs (Decidable (s.total_memory_bytes = (s.blocks.map (·.size)).sum))

/-! ### Arithmetic helpers -/

theorem dvd_roundUp (n val : Nat) : val ∣ RoundUp n val := by
  unfold RoundUp
  exact Dvd.intro_left _ rfl

theorem le_roundUp (n : Nat) {val : Nat} (h : 0 < val) : n ≤ RoundUp n val := by
  unfold RoundUp
  rw [Nat.mul_comm]
  have h1 := Nat.div_add_mod (n + val - 1) val
  have h2 := Nat.mod_lt (n + val - 1) h
  omega

theorem roundUp_eq_self {n val : Nat} (hv : 0 < val) (h : val ∣ n) : RoundUp n val = n := by
  obtain ⟨q, rfl⟩ := h
  unfold RoundUp
  have h1 : val * q + val - 1 = (val - 1) + val * q := by omega
  rw [h1, Nat.add_mul_div_left _ _ hv, Nat.div_eq_of_lt (by omega), Nat.zero_add, Nat.mul_comm]

theorem xor63 : ∀ k : Nat, k < 64 → 63 ^^^ (63 - k) = k := by decide

theorem log2fuel_eq : ∀ (f n : Nat), n < 2 ^ f → log2fuel f n = Nat.log2 n := by
  intro f
  induction f with
  | zero =>
    intro n h
    have hn : n = 0 := by simpa using h
    subst hn
    rw [Nat.log2]
    rfl
  | succ f ih =>
    intro n h
    show (if 2 ≤ n then log2fuel f (n / 2) + 1 else 0) = Nat.log2 n
    by_cases hn : 2 ≤ n
    · have hdiv : n / 2 < 2 ^ f := by
        rw [Nat.div_lt_iff_lt_mul (by norm_num)]
        calc n < 2 ^ (f + 1) := h
        _ = 2 ^ f * 2 := pow_succ 2 f
      rw [if_pos hn, ih (n / 2) hdiv]
      conv_rhs => rw [Nat.log2]
      rw [if_pos hn]
    · rw [if_neg hn]
      conv_rhs => rw [Nat.log2]
      rw [if_neg hn]

theorem log2fuel_big : ∀ (f n : Nat), 2 ^ f ≤ n → f ≤ log2fuel f n := by
  intro f
  induction f with
  | zero => intro n _; exact Nat.zero_le _
  | succ f ih =>
    intro n h
    have hpow : (2 : Nat) ≤ 2 ^ (f + 1) := by
      calc (2 : Nat) = 2 ^ 1 := rfl
      _ ≤ 2 ^ (f + 1) := Nat.pow_le_pow_right (by norm_num) (by omega)
    have h2 : 2 ≤ n := le_trans hpow h
    show f + 1 ≤ (if 2 ≤ n then log2fuel f (n / 2) + 1 else 0)
    rw [if_pos h2]
    have hdiv : 2 ^ f ≤ n / 2 := by
      rw [Nat.le_div_iff_mul_le (by norm_num)]
      calc 2 ^ f * 2 = 2 ^ (f + 1) := (pow_succ 2 f).symm
      _ ≤ n := h
    exact Nat.succ_le_succ (ih _ hdiv)

theorem binNum_eq_min_log (size : Nat) :
    BinNum4BinSize size
      = min (kBinNumSize - 1) (Nat.log2 (max size kAlignSize / kAlignSize)) := by
  unfold BinNum4BinSize clzll
  have h512 : max size kAlignSize >>> 9 = max size kAlignSize / kAlignSize := by
    rw [Nat.shiftRight_eq_div_pow]; norm_num [kAlignSize]
  rw [h512]
  have hv1 : 1 ≤ max size kAlignSize / kAlignSize := by
    rw [Nat.le_div_iff_mul_le (by norm_num [kAlignSize])]
    simp [kAlignSize]
  set v := max size kAlignSize / kAlignSize with hv
  by_cases hbig : v < 2 ^ 64
  · rw [log2fuel_eq 64 v hbig]
    have hlog : Nat.log2 v ≤ 63 := by
      have := (Nat.log2_lt (by omega)).mpr hbig
      omega
    rw [show 64 - (Nat.log2 v + 1) = 63 - Nat.log2 v by omega, xor63 _ (by omega)]
  · push_neg at hbig
    have h1 : 64 ≤ log2fuel 64 v := log2fuel_big 64 v hbig
    have h2 : 64 ≤ Nat.log2 v := (Nat.le_log2 (by omega)).mpr hbig
    rw [show 64 - (log2fuel 64 v + 1) = 0 by omega]
    rw [show (63 : Nat) ^^^ 0 = 63 by decide]
    simp only [kBinNumSize]
    omega

theorem binNum_mono {a b : Nat} (h : a ≤ b) : BinNum4BinSize a ≤ BinNum4BinSize b := by
  rw [binNum_eq_min_log, binNum_eq_min_log]
  refine min_le_min (le_refl _) ?_
  rw [Nat.log2_eq_log_two, Nat.log2_eq_log_two]
  exact Nat.log_mono_right (Nat.div_le_div_right (max_le_max h (le_refl _)))

theorem binNum_le (size : Nat) : BinNum4BinSize size ≤ kBinNumSize - 1 := by
  rw [binNum_eq_min_log]; exact min_le_left _ _

theorem binNum_lt (size : Nat) : BinNum4BinSize size < kBinNumSize := by
  have := binNum_le size
  simp only [kBinNumSize] at *
  omega

theorem binNum_eq_of_interval {i size : Nat} (hi : i < kBinNumSize - 1)
    (h1 : kAlignSize * 2 ^ i ≤ size) (h2 : size < kAlignSize * 2 ^ (i + 1)) :
    BinNum4BinSize size = i := by
  rw [binNum_eq_min_log]
  have hpos : 0 < 2 ^ i := Nat.pos_pow_of_pos i (by norm_num)
  have hsz : kAlignSize ≤ size := by
    calc kAlignSize = kAlignSize * 1 := by omega
    _ ≤ kAlignSize * 2 ^ i := Nat.mul_le_mul_left _ hpos
    _ ≤ size := h1
  rw [max_eq_left hsz]
  have hlog : Nat.log2 (size / kAlignSize) = i := by
    rw [Nat.log2_eq_log_two]
    apply Nat.log_eq_of_pow_le_of_lt_pow
    · rw [Nat.le_div_iff_mul_le (by norm_num [kAlignSize])]
      rw [Nat.mul_comm] at h1
      exact h1
    · rw [Nat.div_lt_iff_lt_mul (by norm_num [kAlignSize])]
      rw [Nat.mul_comm] at h2
      exact h2
  rw [hlog]
  simp only [kBinNumSize] at *
  omega

theorem binNum_eq_cap {size : Nat} (h : kAlignSize * 2 ^ (kBinNumSize - 1) ≤ size) :
    BinNum4BinSize size = kBinNumSize - 1 := by
  rw [binNum_eq_min_log]
  have hsz : kAlignSize ≤ size := by
    have hpos : 0 < 2 ^ (kBinNumSize - 1) := Nat.pos_pow_of_pos _ (by norm_num)
    calc kAlignSize = kAlignSize * 1 := by omega
    _ ≤ kAlignSize * 2 ^ (kBinNumSize - 1) := Nat.mul_le_mul_left _ hpos
    _ ≤ size := h
  rw [max_eq_left hsz]
  have hlog : kBinNumSize - 1 ≤ Nat.log2 (size / kAlignSize) := by
    rw [Nat.log2_eq_log_two]
    have hdiv : 2 ^ (kBinNumSize - 1) ≤ size / kAlignSize := by
      rw [Nat.le_div_iff_mul_le (by norm_num [kAlignSize])]
      rw [Nat.mul_comm] at h
      exact h
    calc kBinNumSize - 1 = Nat.log 2 (2 ^ (kBinNumSize - 1)) :=
          (Nat.log_pow (by norm_num) _).symm
    _ ≤ Nat.log 2 (size / kAlignSize) := Nat.log_mono_right hdiv
  omega

/-- C7: `size_class` (the source's `BinNum4BinSize`) equals the index of the
highest set bit of `max(size, alignment_unit) / alignment_unit`, capped at
`num_classes - 1` with `num_classes = kBinNumSize = 20`; `class_floor_size`
(`BinSize4BinNum`) is `alignment_unit << i` with alignment unit 512; hence a
class `i` below the cap holds exactly the sizes in `[512·2^i, 512·2^(i+1))`
and the last class holds every size from `512·2^19` upward. -/
theorem binNum_is_capped_log2_with_pow2_classes :
    (∀ size : Nat,
        BinNum4BinSize size
          = min (kBinNumSize - 1) (Nat.log2 (max size kAlignSize / kAlignSize)))
    ∧ kBinNumSize = 20 ∧ kAlignSize = 512
    ∧ (∀ i : Nat, BinSize4BinNum i = 512 * 2 ^ i)
    ∧ (∀ i size : Nat, i < kBinNumSize - 1 → 512 * 2 ^ i ≤ size →
         size < 512 * 2 ^ (i + 1) → BinNum4BinSize size = i)
    ∧ (∀ size : Nat, 512 * 2 ^ (kBinNumSize - 1) ≤ size →
         BinNum4BinSize size = kBinNumSize - 1) := by
  refine ⟨binNum_eq_min_log, rfl, rfl, ?_, ?_, ?_⟩
  · intro i
    simp [BinSize4BinNum, Nat.shiftLeft_eq, kAlignSize]
  · intro i size hi h1 h2
    exact binNum_eq_of_interval hi (by simpa [kAlignSize] using h1)
      (by simpa [kAlignSize] using h2)
  · intro size h
    exact binNum_eq_cap (by simpa [kAlignSize] using h)

theorem binNum_is_capped_log2_with_pow2_classes_witness :
    BinNum4BinSize 5000 = 3 ∧ BinSize4BinNum 3 = 4096
    ∧ BinNum4BinSize (512 * 2 ^ 19 + 7) = 19 := by
  refine ⟨?_, ?_, ?_⟩
  · exact binNum_is_capped_log2_with_pow2_classes.2.2.2.2.1 3 5000 (by decide)
      (by norm_num) (by norm_num)
  · have h := binNum_is_capped_log2_with_pow2_classes.2.2.2.1 3
    simpa using h
  · have h := binNum_is_capped_log2_with_pow2_classes.2.2.2.2.2 (512 * 2 ^ 19 + 7)
      (by norm_num [kBinNumSize])
    simpa [kBinNumSize] using h

/-- C9: `allocate(0)` returns the null pointer and leaves the allocator state
— and with it the derived bins, Piece chains, address map and
`total_memory_bytes_` — completely unchanged. -/
theorem doAllocate_zero_is_null_noop :
    ∀ (s : AllocState) (mem_ptr : Nat), DoAllocate s 0 mem_ptr = .success none s := by
  intro s mem_ptr
  rfl

/-- C1 (evidence for the code bug): deallocating an address the allocator has
never handed out takes the unchecked path — `ptr2piece_.find` misses and the
source dereferences the end iterator with no `RV_CHECK`, which is undefined
behaviour rather than the loud failure the claim requires; by contrast the
double-free half of the precondition is checked loudly
(`RV_CHECK(!piece->is_free)`) before any state is mutated. -/
theorem deallocate_unknown_addr_unchecked :
    Deallocate { total_memory_bytes := 0, blocks := [] } 512 = DeallocResult.ub
    ∧ Deallocate
        { total_memory_bytes := 2097152,
          blocks := [{ size := 2097152, ptr := 4096,
                       chain := [{ size := 2097152, ptr := 4096, is_free := true,
                                   bin_num := 12 }] }] } 4096
        = DeallocResult.rvFail :=
  ⟨rfl, rfl⟩

/-- C8: on a growth event the byte count requested from the substrate is
2 MiB when `aligned_size < 1 MiB`, 20 MiB when `1 MiB ≤ aligned_size <
10 MiB`, and otherwise `aligned_size` rounded up to the next 2 MiB multiple;
the result is then rounded up to the alignment unit, growth proceeds only
when the final count is at least `aligned_size` (which it always is, so the
only growth failure cause is the substrate returning NULL), and a successful
growth always requests at least the 2 MiB tier minimum, never the bare
request. -/
theorem growth_request_tiers : ∀ (s : AllocState) (a m : Nat) (s' : AllocState),
    (AllocateBlockToExtendTotalMem s a m = (true, s') →
      ∃ b : Block, s'.blocks = s.blocks ++ [b]
        ∧ s'.total_memory_bytes = s.total_memory_bytes + b.size
        ∧ b.size = MemAlignedBytes
            (if a < 1048576 then 2097152
             else if a < 10485760 then 20971520
             else RoundUp a 2097152) kCudaAlignSize
        ∧ (a < 1048576 → b.size = 2097152)
        ∧ (1048576 ≤ a → a < 10485760 → b.size = 20971520)
        ∧ (10485760 ≤ a → b.size = RoundUp a 2097152)
        ∧ b.size % kCudaAlignSize = 0 ∧ a ≤ b.size ∧ 2097152 ≤ b.size)
    ∧ (AllocateBlockToExtendTotalMem s a m = (false, s') → m = 0 ∧ s' = s) := by
  intro s a m s'
  have hdvd : (kCudaAlignSize : Nat)
      ∣ (if a < 1048576 then 2097152
         else if a < 10485760 then (20971520 : Nat)
         else RoundUp a 2097152) := by
    split_ifs with h1 h2
    · norm_num [kCudaAlignSize]
    · norm_num [kCudaAlignSize]
    · exact Dvd.dvd.trans (by norm_num [kCudaAlignSize]) (dvd_roundUp a 2097152)
  have hfinal : MemAlignedBytes
      (if a < 1048576 then 2097152
       else if a < 10485760 then (20971520 : Nat)
       else RoundUp a 2097152) kCudaAlignSize
      = (if a < 1048576 then 2097152
         else if a < 10485760 then (20971520 : Nat)
         else RoundUp a 2097152) := by
    unfold MemAlignedBytes
    exact roundUp_eq_self (by norm_num [kCudaAlignSize]) hdvd
  have hta : a ≤ (if a < 1048576 then 2097152
       else if a < 10485760 then (20971520 : Nat)
       else RoundUp a 2097152) := by
    split_ifs with h1 h2
    · omega
    · omega
    · exact le_roundUp a (by norm_num)
  have ht2 : 2097152 ≤ (if a < 1048576 then 2097152
       else if a < 10485760 then (20971520 : Nat)
       else RoundUp a 2097152) := by
    split_ifs with h1 h2
    · omega
    · omega
    · have := le_roundUp a (show 0 < 2097152 by norm_num)
      omega
  constructor
  · intro h
    simp only [AllocateBlockToExtendTotalMem, hfinal] at h
    rw [if_neg (by omega)] at h
    by_cases hm : m = 0
    · rw [if_pos hm] at h
      simp at h
    · rw [if_neg hm] at h
      simp only [Prod.mk.injEq, true_and] at h
      subst h
      refine ⟨_, rfl, rfl, hfinal.symm, ?_, ?_, ?_, ?_, hta, ht2⟩
      · intro h1
        show (if a < 1048576 then (2097152 : Nat)
              else if a < 10485760 then 20971520 else RoundUp a 2097152) = 2097152
        rw [if_pos h1]
      · intro h1 h2
        show (if a < 1048576 then (2097152 : Nat)
              else if a < 10485760 then 20971520 else RoundUp a 2097152) = 20971520
        rw [if_neg (by omega), if_pos h2]
      · intro h1
        show (if a < 1048576 then (2097152 : Nat)
              else if a < 10485760 then 20971520 else RoundUp a 2097152) = RoundUp a 2097152
        rw [if_neg (by omega), if_neg (by omega)]
      · show (if a < 1048576 then (2097152 : Nat)
              else if a < 10485760 then 20971520 else RoundUp a 2097152) % kCudaAlignSize = 0
        exact Nat.mod_eq_zero_of_dvd hdvd
  · intro h
    simp only [AllocateBlockToExtendTotalMem, hfinal] at h
    rw [if_neg (by omega)] at h
    by_cases hm : m = 0
    · rw [if_pos hm] at h
      simp only [Prod.mk.injEq, true_and] at h
      exact ⟨hm, h.symm⟩
    · rw [if_neg hm] at h
      simp at h

/-! ### Garbage-collection helpers -/

theorem sum_sizes_partition (bs : List Block) :
    ((bs.filter blockIdle).map (·.size)).sum
      + ((bs.filter (fun b => !blockIdle b)).map (·.size)).sum
      = (bs.map (·.size)).sum := by
  induction bs with
  | nil => rfl
  | cons b rest ih =>
    by_cases hb : blockIdle b
    · simp only [List.filter_cons, hb, Bool.not_true, if_pos, if_neg, List.map_cons,
        List.sum_cons, ite_true, ite_false, Bool.false_eq_true]
      omega
    · simp only [List.filter_cons, Bool.not_eq_true] at hb
      simp only [List.filter_cons, hb, Bool.not_false, List.map_cons, List.sum_cons,
        ite_true, ite_false, Bool.false_eq_true]
      omega

/-- C4: the reclamation pass releases exactly the idle Blocks (those whose
whole chain is free): the surviving Block list is the non-idle Blocks (each
released Block's Pieces leave their bins and the derived address map together
with the Block), `total_memory_bytes_` drops by exactly the released sizes
and therefore equals the sum of the surviving Blocks' sizes, and the pass
returns `true` iff at least one Block was released. -/
theorem gc_releases_exactly_idle_blocks : ∀ s : AllocState,
    TotalOk s → (∀ b ∈ s.blocks, 0 < b.size) →
    (DeallocateFreeBlockForGarbageCollection s).2.blocks
        = s.blocks.filter (fun b => !blockIdle b)
    ∧ (DeallocateFreeBlockForGarbageCollection s).2.total_memory_bytes
        = (((DeallocateFreeBlockForGarbageCollection s).2.blocks).map (·.size)).sum
    ∧ ((DeallocateFreeBlockForGarbageCollection s).1 = true
        ↔ ∃ b ∈ s.blocks, blockIdle b = true) := by
  intro s htot hpos
  have hpart := sum_sizes_partition s.blocks
  by_cases hfree : 0 < ((s.blocks.filter blockIdle).map (·.size)).sum
  · have hblocks : (DeallocateFreeBlockForGarbageCollection s).2.blocks
        = s.blocks.filter (fun b => !blockIdle b) := by
      simp only [DeallocateFreeBlockForGarbageCollection, if_pos hfree]
    refine ⟨hblocks, ?_, ?_⟩
    · rw [hblocks]
      have htot2 : (DeallocateFreeBlockForGarbageCollection s).2.total_memory_bytes
          = s.total_memory_bytes - ((s.blocks.filter blockIdle).map (·.size)).sum := by
        simp only [DeallocateFreeBlockForGarbageCollection]
      rw [htot2, htot]
      unfold TotalOk at htot
      omega
    · simp only [DeallocateFreeBlockForGarbageCollection, decide_eq_true_iff]
      constructor
      · intro _
        -- a positive sum over the idle blocks needs a nonempty idle list
        rcases hidle : s.blocks.filter blockIdle with _ | ⟨b, rest⟩
        · rw [hidle] at hfree
          simp at hfree
        · have hb : b ∈ s.blocks.filter blockIdle := by rw [hidle]; exact List.mem_cons_self b rest
          have := List.mem_filter.mp hb
          exact ⟨b, this.1, this.2⟩
      · intro _
        exact hfree
  · have hzero : ((s.blocks.filter blockIdle).map (·.size)).sum = 0 := by omega
    have hno : ∀ b ∈ s.blocks, ¬ blockIdle b = true := by
      intro b hb hidle
      have hbmem : b ∈ s.blocks.filter blockIdle := List.mem_filter.mpr ⟨hb, hidle⟩
      have hsz : b.size ∈ (s.blocks.filter blockIdle).map (·.size) :=
        List.mem_map_of_mem _ hbmem
      have hle := List.single_le_sum (fun x _ => Nat.zero_le x) _ hsz
      have := hpos b hb
      omega
    have hfilt : s.blocks.filter (fun b => !blockIdle b) = s.blocks :=
      List.filter_eq_self.mpr (fun b hb => by simp [hno b hb])
    refine ⟨?_, ?_, ?_⟩
    · simp only [DeallocateFreeBlockForGarbageCollection, if_neg hfree, hfilt]
    · simp only [DeallocateFreeBlockForGarbageCollection, if_neg hfree, hzero, Nat.sub_zero]
      exact htot
    · simp only [DeallocateFreeBlockForGarbageCollection, decide_eq_true_iff]
      constructor
      · intro h
        omega
      · rintro ⟨b, hb, hidle⟩
        exact absurd hidle (hno b hb)

def gcExS : AllocState :=
  { total_memory_bytes := 4194304,
    blocks := [{ size := 2097152, ptr := 4096,
                 chain := [{ size := 2097152, ptr := 4096, is_free := true, bin_num := 12 }] },
               { size := 2097152, ptr := 8388608,
                 chain := [{ size := 2097152, ptr := 8388608, is_free := false,
                             bin_num := -1 }] }] }

theorem gc_releases_exactly_idle_blocks_witness :
    (DeallocateFreeBlockForGarbageCollection gcExS).2.blocks
        = gcExS.blocks.filter (fun b => !blockIdle b)
    ∧ (DeallocateFreeBlockForGarbageCollection gcExS).2.total_memory_bytes
        = (((DeallocateFreeBlockForGarbageCollection gcExS).2.blocks).map (·.size)).sum
    ∧ ((DeallocateFreeBlockForGarbageCollection gcExS).1 = true
        ↔ ∃ b ∈ gcExS.blocks, blockIdle b = true) :=
  gc_releases_exactly_idle_blocks gcExS (by unfold TotalOk; decide) (by decide)

def growthExS : AllocState := { total_memory_bytes := 0, blocks := [] }

def growthExS' : AllocState :=
  { total_memory_bytes := 2097152,
    blocks := [{ size := 2097152, ptr := 4096,
                 chain := [{ size := 2097152, ptr := 4096, is_free := true,
                             bin_num := 12 }] }] }

theorem growth_request_tiers_witness :
    (∃ b : Block, growthExS'.blocks = growthExS.blocks ++ [b]
      ∧ growthExS'.total_memory_bytes = growthExS.total_memory_bytes + b.size
      ∧ b.size = MemAlignedBytes
          (if (1024 : Nat) < 1048576 then 2097152
           else if (1024 : Nat) < 10485760 then 20971520
           else RoundUp 1024 2097152) kCudaAlignSize
      ∧ ((1024 : Nat) < 1048576 → b.size = 2097152)
      ∧ ((1048576 : Nat) ≤ 1024 → (1024 : Nat) < 10485760 → b.size = 20971520)
      ∧ ((10485760 : Nat) ≤ 1024 → b.size = RoundUp 1024 2097152)
      ∧ b.size % kCudaAlignSize = 0 ∧ 1024 ≤ b.size ∧ 2097152 ≤ b.size)
    ∧ ((0 : Nat) = 0 ∧ growthExS = growthExS) := by
  have h12 : BinNum4BinSize 2097152 = 12 :=
    binNum_eq_of_interval (by norm_num [kBinNumSize]) (by norm_num [kAlignSize])
      (by norm_num [kAlignSize])
  refine ⟨(growth_request_tiers growthExS 1024 4096 growthExS').1 ?_,
    (growth_request_tiers growthExS 1024 0 growthExS).2 ?_⟩
  · norm_num [AllocateBlockToExtendTotalMem, MemAlignedBytes, RoundUp, kCudaAlignSize,
      growthExS, growthExS', h12]
  · norm_num [AllocateBlockToExtendTotalMem, MemAlignedBytes, RoundUp, kCudaAlignSize,
      growthExS]

/-! ### Chain helpers for coalescing -/

theorem noAdjFree_glue {A B : List Piece} {z : Piece}
    (hA : noAdjFree A) (hB : noAdjFree B)
    (hAz : ∀ l ∈ A.getLast?, FreeSep l z)
    (hzB : ∀ h ∈ B.head?, FreeSep z h) :
    noAdjFree (A ++ z :: B) := by
  unfold noAdjFree at *
  rw [List.chain'_append]
  refine ⟨hA, List.Chain'.cons' hB hzB, ?_⟩
  intro a ha y hy
  simp only [List.head?_cons, Option.mem_def, Option.some.injEq] at hy
  subst hy
  exact hAz a ha

theorem noAdjFree_decomp {A B : List Piece} {z : Piece} (h : noAdjFree (A ++ z :: B)) :
    noAdjFree A ∧ noAdjFree B
    ∧ (∀ l ∈ A.getLast?, FreeSep l z)
    ∧ (∀ hd ∈ B.head?, FreeSep z hd) := by
  unfold noAdjFree at *
  rw [List.chain'_append] at h
  obtain ⟨hA, hzB, hbound⟩ := h
  refine ⟨hA, hzB.tail, ?_, hzB.rel_head?⟩
  intro l hl
  exact hbound l hl z (by simp)

theorem tilesFromB_adjacent : ∀ (A : List Piece) (a : Nat) (y x : Piece) (B : List Piece),
    tilesFromB a (A ++ y :: x :: B) = true → y.ptr + y.size = x.ptr := by
  intro A
  induction A with
  | nil =>
    intro a y x B h
    simp only [List.nil_append, tilesFromB, Bool.and_eq_true, beq_iff_eq] at h
    obtain ⟨hy, hx, -⟩ := h
    omega
  | cons p rest ih =>
    intro a y x B h
    simp only [List.cons_append, tilesFromB, Bool.and_eq_true, beq_iff_eq] at h
    exact ih (a + p.size) y x B h.2

theorem findPieceAt_split : ∀ (c : List Piece) (tgt i : Nat) (x : Piece),
    findPieceAt c tgt = some (i, x) →
    ∃ pre post, c = pre ++ x :: post ∧ c.take i = pre ∧ c.drop (i + 1) = post
      ∧ x.ptr = tgt ∧ ∀ q ∈ pre, q.ptr ≠ tgt := by
  intro c
  induction c with
  | nil => intro tgt i x h; simp [findPieceAt] at h
  | cons p rest ih =>
    intro tgt i x h
    simp only [findPieceAt] at h
    by_cases hp : p.ptr = tgt
    · rw [if_pos hp] at h
      simp only [Option.some.injEq, Prod.mk.injEq] at h
      obtain ⟨hi, hx⟩ := h
      subst hx
      refine ⟨[], rest, by simp, by simp [← hi], by simp [← hi], hp, by simp⟩
    · rw [if_neg hp] at h
      cases hfa : findPieceAt rest tgt with
      | none => rw [hfa] at h; simp at h
      | some ip =>
        rw [hfa] at h
        obtain ⟨j, y⟩ := ip
        simp only [Option.map_some', Option.some.injEq, Prod.mk.injEq] at h
        obtain ⟨hi, hx⟩ := h
        subst hx
        obtain ⟨pre, post, hc, htk, hdr, hptr, hpre⟩ := ih tgt j y hfa
        refine ⟨p :: pre, post, by rw [List.cons_append, ← hc], ?_, ?_, hptr, ?_⟩
        · rw [← hi, List.take_succ_cons, htk]
        · rw [← hi]
          show (p :: rest).drop (j + 1 + 1) = post
          rw [List.drop_succ_cons, hdr]
        · intro q hq
          rcases List.mem_cons.mp hq with rfl | hq2
          · exact hp
          · exact hpre q hq2

theorem deallocBlocks_split : ∀ (bs : List Block) (tgt : Nat) (bs' : List Block),
    deallocBlocks tgt bs = .ok bs' →
    ∃ B1 b B2 i x, bs = B1 ++ b :: B2
      ∧ findPieceAt b.chain tgt = some (i, x) ∧ x.is_free = false
      ∧ bs' = B1
          ++ { b with chain := deallocCore (b.chain.take i) x (b.chain.drop (i + 1)) } :: B2 := by
  intro bs
  induction bs with
  | nil => intro tgt bs' h; simp [deallocBlocks] at h
  | cons b rest ih =>
    intro tgt bs' h
    simp only [deallocBlocks] at h
    split at h
    · rename_i i x heq
      split at h
      · cases h
      · rename_i hxf
        simp only [BlocksDealloc.ok.injEq] at h
        exact ⟨[], b, rest, i, x, by simp, heq, by simpa using hxf, by simp [← h]⟩
    · rename_i heq
      split at h
      · cases h
      · cases h
      · rename_i bs2 hrec
        simp only [BlocksDealloc.ok.injEq] at h
        obtain ⟨B1, b2, B2, i, x, hbs, hf, hxf, hbs2⟩ := ih tgt bs2 hrec
        exact ⟨b :: B1, b2, B2, i, x, by rw [List.cons_append, ← hbs], hf, hxf,
          by rw [← h, hbs2, List.cons_append]⟩

theorem deallocCore_cases (pre : List Piece) (x : Piece) (post : List Piece) :
    (deallocCore pre x post
        = pre ++ fileIntoBin { x with is_free := true } :: post
      ∧ (∀ l ∈ pre.getLast?, l.is_free = false) ∧ (∀ r ∈ post.head?, r.is_free = false))
    ∨ (∃ r rest, post = r :: rest ∧ r.is_free = true
        ∧ deallocCore pre x post
            = pre ++ fileIntoBin { x with is_free := true, size := x.size + r.size } :: rest
        ∧ (∀ l ∈ pre.getLast?, l.is_free = false))
    ∨ (∃ pre' l, pre = pre' ++ [l] ∧ l.is_free = true
        ∧ deallocCore pre x post
            = pre' ++ fileIntoBin { l with size := l.size + x.size } :: post
        ∧ (∀ r ∈ post.head?, r.is_free = false))
    ∨ (∃ pre' l r rest, pre = pre' ++ [l] ∧ post = r :: rest
        ∧ l.is_free = true ∧ r.is_free = true
        ∧ deallocCore pre x post
            = pre' ++ fileIntoBin { l with size := l.size + (x.size + r.size) } :: rest) := by
  unfold deallocCore freeMergeNext mergePrevStep
  rcases post with _ | ⟨r, rest⟩
  · rcases hg : pre.getLast? with _ | l
    · left
      refine ⟨by simp [hg], ?_, ?_⟩
      · intro t ht; cases ht
      · intro t ht; cases ht
    · by_cases hlf : l.is_free = true
      · right; right; left
        refine ⟨pre.dropLast, l, (List.dropLast_append_getLast? l hg).symm, hlf,
          by simp [hg, hlf], by intro t ht; cases ht⟩
      · left
        refine ⟨by simp [hg, hlf], ?_, ?_⟩
        · intro t ht
          simp only [Option.mem_def, Option.some.injEq] at ht
          subst ht
          simpa using hlf
        · intro t ht; cases ht
  · by_cases hrf : r.is_free = true
    · rcases hg : pre.getLast? with _ | l
      · right; left
        refine ⟨r, rest, rfl, hrf, by simp [hg, hrf], ?_⟩
        intro t ht; cases ht
      · by_cases hlf : l.is_free = true
        · right; right; right
          exact ⟨pre.dropLast, l, r, rest, (List.dropLast_append_getLast? l hg).symm, rfl,
            hlf, hrf, by simp [hg, hrf, hlf]⟩
        · right; left
          refine ⟨r, rest, rfl, hrf, by simp [hg, hrf, hlf], ?_⟩
          intro t ht
          simp only [Option.mem_def, Option.some.injEq] at ht
          subst ht
          simpa using hlf
    · rcases hg : pre.getLast? with _ | l
      · left
        refine ⟨by simp [hg, hrf], ?_, ?_⟩
        · intro t ht; cases ht
        · intro t ht
          simp only [List.head?_cons, Option.mem_def, Option.some.injEq] at ht
          subst ht
          simpa using hrf
      · by_cases hlf : l.is_free = true
        · right; right; left
          refine ⟨pre.dropLast, l, (List.dropLast_append_getLast? l hg).symm, hlf,
            by simp [hg, hrf, hlf], ?_⟩
          intro t ht
          simp only [List.head?_cons, Option.mem_def, Option.some.injEq] at ht
          subst ht
          simpa using hrf
        · left
          refine ⟨by simp [hg, hrf, hlf], ?_, ?_⟩
          · intro t ht
            simp only [Option.mem_def, Option.some.injEq] at ht
            subst ht
            simpa using hlf
          · intro t ht
            simp only [List.head?_cons, Option.mem_def, Option.some.injEq] at ht
            subst ht
            simpa using hrf

theorem deallocCore_noAdjFree {pre : List Piece} {x : Piece} {post : List Piece}
    (h : noAdjFree (pre ++ x :: post)) : noAdjFree (deallocCore pre x post) := by
  obtain ⟨hpre, hpost, hlast, hhead⟩ := noAdjFree_decomp h
  rcases deallocCore_cases pre x post with
    ⟨heq, hl, hr⟩ | ⟨r, rest, hp, hrf, heq, hl⟩ | ⟨pre', l, hp, hlf, heq, hr⟩
      | ⟨pre', l, r, rest, hp, hpo, hlf, hrf, heq⟩
  · rw [heq]
    exact noAdjFree_glue hpre hpost (fun t ht => Or.inl (hl t ht))
      (fun t ht => Or.inr (hr t ht))
  · rw [heq]
    subst hp
    refine noAdjFree_glue hpre hpost.tail (fun t ht => Or.inl (hl t ht)) ?_
    intro t ht
    rcases (List.Chain'.rel_head? hpost) ht with h1 | h2
    · rw [hrf] at h1; cases h1
    · exact Or.inr h2
  · rw [heq]
    subst hp
    obtain ⟨hpre', -, hbound, -⟩ := noAdjFree_decomp (A := pre') (B := []) (z := l) hpre
    refine noAdjFree_glue hpre' hpost ?_ (fun t ht => Or.inr (hr t ht))
    intro t ht
    rcases hbound t ht with h1 | h2
    · exact Or.inl h1
    · rw [hlf] at h2; cases h2
  · rw [heq]
    subst hp
    subst hpo
    obtain ⟨hpre', -, hbound, -⟩ := noAdjFree_decomp (A := pre') (B := []) (z := l) hpre
    refine noAdjFree_glue hpre' hpost.tail ?_ ?_
    · intro t ht
      rcases hbound t ht with h1 | h2
      · exact Or.inl h1
      · rw [hlf] at h2; cases h2
    · intro t ht
      rcases (List.Chain'.rel_head? hpost) ht with h1 | h2
      · rw [hrf] at h1; cases h1
      · exact Or.inr h2

theorem deallocCore_survivor {pre : List Piece} {x : Piece} {post : List Piece}
    (hxpos : 0 < x.size)
    (htile : ∀ l ∈ pre.getLast?, l.ptr + l.size = x.ptr)
    (hpos : ∀ l ∈ pre.getLast?, 0 < l.size) :
    ∃ z ∈ deallocCore pre x post, z.is_free = true ∧ z.ptr ≤ x.ptr
      ∧ x.ptr < z.ptr + z.size ∧ z.bin_num = (BinNum4BinSize z.size : Int) := by
  rcases deallocCore_cases pre x post with
    ⟨heq, -, -⟩ | ⟨r, rest, hp, -, heq, -⟩ | ⟨pre', l, hp, hlf, heq, -⟩
      | ⟨pre', l, r, rest, hp, hpo, hlf, -, heq⟩
  · rw [heq]
    refine ⟨_, List.mem_append_right _ (List.mem_cons_self _ _), rfl, le_refl _, ?_, rfl⟩
    show x.ptr < x.ptr + x.size
    omega
  · rw [heq]
    refine ⟨_, List.mem_append_right _ (List.mem_cons_self _ _), rfl, le_refl _, ?_, rfl⟩
    show x.ptr < x.ptr + (x.size + r.size)
    omega
  · have hgl : pre.getLast? = some l := by rw [hp]; exact List.getLast?_concat _
    have ht := htile l hgl
    have hlpos := hpos l hgl
    rw [heq]
    refine ⟨_, List.mem_append_right _ (List.mem_cons_self _ _), ?_, ?_, ?_, rfl⟩
    · show l.is_free = true
      exact hlf
    · show l.ptr ≤ x.ptr
      omega
    · show x.ptr < l.ptr + (l.size + x.size)
      omega
  · have hgl : pre.getLast? = some l := by rw [hp]; exact List.getLast?_concat _
    have ht := htile l hgl
    have hlpos := hpos l hgl
    rw [heq]
    refine ⟨_, List.mem_append_right _ (List.mem_cons_self _ _), ?_, ?_, ?_, rfl⟩
    · show l.is_free = true
      exact hlf
    · show l.ptr ≤ x.ptr
      omega
    · show x.ptr < l.ptr + (l.size + (x.size + r.size))
      omega

theorem deallocCore_aligned {pre : List Piece} {x : Piece} {post : List Piece}
    (h : ∀ q ∈ pre ++ x :: post, 0 < q.size ∧ q.size % kCudaAlignSize = 0) :
    ∀ q ∈ deallocCore pre x post, 0 < q.size ∧ q.size % kCudaAlignSize = 0 := by
  simp only [kCudaAlignSize] at h ⊢
  have hx := h x (List.mem_append_right _ (List.mem_cons_self _ _))
  rcases deallocCore_cases pre x post with
    ⟨heq, -, -⟩ | ⟨r, rest, hp, -, heq, -⟩ | ⟨pre', l, hp, -, heq, -⟩
      | ⟨pre', l, r, rest, hp, hpo, -, -, heq⟩
  · rw [heq]
    intro q hq
    rcases List.mem_append.mp hq with hq1 | hq2
    · exact h q (List.mem_append_left _ hq1)
    · rcases List.mem_cons.mp hq2 with rfl | hq3
      · refine ⟨?_, ?_⟩
        · show 0 < x.size
          omega
        · show x.size % 512 = 0
          omega
      · exact h q (List.mem_append_right _ (List.mem_cons_of_mem _ hq3))
  · subst hp
    have hr := h r (List.mem_append_right _ (List.mem_cons_of_mem _ (List.mem_cons_self _ _)))
    rw [heq]
    intro q hq
    rcases List.mem_append.mp hq with hq1 | hq2
    · exact h q (List.mem_append_left _ hq1)
    · rcases List.mem_cons.mp hq2 with rfl | hq3
      · refine ⟨?_, ?_⟩
        · show 0 < x.size + r.size
          omega
        · show (x.size + r.size) % 512 = 0
          omega
      · exact h q (List.mem_append_right _
          (List.mem_cons_of_mem _ (List.mem_cons_of_mem _ hq3)))
  · subst hp
    have hl := h l (List.mem_append_left _ (List.mem_append_right _ (List.mem_cons_self _ _)))
    rw [heq]
    intro q hq
    rcases List.mem_append.mp hq with hq1 | hq2
    · exact h q (List.mem_append_left _ (List.mem_append_left _ hq1))
    · rcases List.mem_cons.mp hq2 with rfl | hq3
      · refine ⟨?_, ?_⟩
        · show 0 < l.size + x.size
          omega
        · show (l.size + x.size) % 512 = 0
          omega
      · exact h q (List.mem_append_right _ (List.mem_cons_of_mem _ hq3))
  · subst hp
    subst hpo
    have hl := h l (List.mem_append_left _ (List.mem_append_right _ (List.mem_cons_self _ _)))
    have hr := h r (List.mem_append_right _ (List.mem_cons_of_mem _ (List.mem_cons_self _ _)))
    rw [heq]
    intro q hq
    rcases List.mem_append.mp hq with hq1 | hq2
    · exact h q (List.mem_append_left _ (List.mem_append_left _ hq1))
    · rcases List.mem_cons.mp hq2 with rfl | hq3
      · refine ⟨?_, ?_⟩
        · show 0 < l.size + (x.size + r.size)
          omega
        · show (l.size + (x.size + r.size)) % 512 = 0
          omega
      · exact h q (List.mem_append_right _
          (List.mem_cons_of_mem _ (List.mem_cons_of_mem _ hq3)))

theorem deallocCore_binsOk {pre : List Piece} {x : Piece} {post : List Piece}
    (h : ∀ q ∈ pre ++ x :: post, q.is_free = true →
      q.bin_num = (BinNum4BinSize q.size : Int)) :
    ∀ q ∈ deallocCore pre x post, q.is_free = true →
      q.bin_num = (BinNum4BinSize q.size : Int) := by
  rcases deallocCore_cases pre x post with
    ⟨heq, -, -⟩ | ⟨r, rest, hp, -, heq, -⟩ | ⟨pre', l, hp, -, heq, -⟩
      | ⟨pre', l, r, rest, hp, hpo, -, -, heq⟩ <;>
    rw [heq] <;> intro q hq hqf
  · rcases List.mem_append.mp hq with hq1 | hq2
    · exact h q (List.mem_append_left _ hq1) hqf
    · rcases List.mem_cons.mp hq2 with rfl | hq3
      · rfl
      · exact h q (List.mem_append_right _ (List.mem_cons_of_mem _ hq3)) hqf
  · subst hp
    rcases List.mem_append.mp hq with hq1 | hq2
    · exact h q (List.mem_append_left _ hq1) hqf
    · rcases List.mem_cons.mp hq2 with rfl | hq3
      · rfl
      · exact h q (List.mem_append_right _
          (List.mem_cons_of_mem _ (List.mem_cons_of_mem _ hq3))) hqf
  · subst hp
    rcases List.mem_append.mp hq with hq1 | hq2
    · exact h q (List.mem_append_left _ (List.mem_append_left _ hq1)) hqf
    · rcases List.mem_cons.mp hq2 with rfl | hq3
      · rfl
      · exact h q (List.mem_append_right _ (List.mem_cons_of_mem _ hq3)) hqf
  · subst hp
    subst hpo
    rcases List.mem_append.mp hq with hq1 | hq2
    · exact h q (List.mem_append_left _ (List.mem_append_left _ hq1)) hqf
    · rcases List.mem_cons.mp hq2 with rfl | hq3
      · rfl
      · exact h q (List.mem_append_right _
          (List.mem_cons_of_mem _ (List.mem_cons_of_mem _ hq3))) hqf

theorem deallocate_ok_spec {s : AllocState} {ptr : Nat} {s' : AllocState}
    (hptr : ptr ≠ 0) (h : Deallocate s ptr = .ok s') :
    s'.total_memory_bytes = s.total_memory_bytes
    ∧ ∃ B1 b B2 pre x post, s.blocks = B1 ++ b :: B2
      ∧ b.chain = pre ++ x :: post ∧ x.ptr = ptr ∧ x.is_free = false
      ∧ s'.blocks = B1 ++ { b with chain := deallocCore pre x post } :: B2 := by
  unfold Deallocate at h
  rw [if_neg hptr] at h
  cases hdb : deallocBlocks ptr s.blocks with
  | notFound => rw [hdb] at h; cases h
  | doubleFree => rw [hdb] at h; cases h
  | ok bs =>
    rw [hdb] at h
    simp only [DeallocResult.ok.injEq] at h
    subst h
    obtain ⟨B1, b, B2, i, x, hbs, hf, hxf, hbs'⟩ := deallocBlocks_split _ _ _ hdb
    obtain ⟨pre, post, hc, htk, hdr, hxp, hpre⟩ := findPieceAt_split _ _ _ _ hf
    refine ⟨rfl, B1, b, B2, pre, x, post, hbs, hc, hxp, hxf, ?_⟩
    show bs = _
    rw [hbs', htk, hdr]

/-! ### FindPiece machinery -/

theorem pieceLE_refl (a : Piece) : pieceLE a a = true := by
  simp [pieceLE]

theorem pieceLE_trans : ∀ (a b c : Piece),
    pieceLE a b = true → pieceLE b c = true → pieceLE a c = true := by
  intro a b c hab hbc
  simp only [pieceLE, Bool.or_eq_true, decide_eq_true_eq, Bool.and_eq_true,
    beq_iff_eq] at *
  omega

theorem pieceLE_total : ∀ (a b : Piece), pieceLE a b || pieceLE b a := by
  intro a b
  simp only [pieceLE, Bool.or_eq_true, decide_eq_true_eq, Bool.and_eq_true,
    beq_iff_eq]
  omega

theorem insertByLE_perm (x : Piece) :
    ∀ l : List Piece, List.Perm (insertByLE x l) (x :: l) := by
  intro l
  induction l with
  | nil => exact List.Perm.refl _
  | cons y ys ih =>
    simp only [insertByLE]
    by_cases h : pieceLE x y = true
    · rw [if_pos h]
    · rw [if_neg h]
      exact List.Perm.trans (ih.cons y) (List.Perm.swap _ _ _)

theorem sortByLE_perm : ∀ l : List Piece, List.Perm (sortByLE l) l := by
  intro l
  induction l with
  | nil => exact List.Perm.refl _
  | cons x xs ih => exact List.Perm.trans (insertByLE_perm x (sortByLE xs)) (ih.cons x)

theorem insertByLE_pairwise (x : Piece) : ∀ l : List Piece,
    l.Pairwise (fun a b => pieceLE a b = true) →
    (insertByLE x l).Pairwise (fun a b => pieceLE a b = true) := by
  intro l
  induction l with
  | nil => intro _; simp [insertByLE]
  | cons y ys ih =>
    intro h
    obtain ⟨hy, hys⟩ := List.pairwise_cons.mp h
    simp only [insertByLE]
    by_cases hle : pieceLE x y = true
    · rw [if_pos hle]
      refine List.Pairwise.cons ?_ h
      intro z hz
      rcases List.mem_cons.mp hz with rfl | hz2
      · exact hle
      · exact pieceLE_trans x y z hle (hy z hz2)
    · rw [if_neg hle]
      refine List.Pairwise.cons ?_ (ih hys)
      intro z hz
      have hz' := (insertByLE_perm x ys).mem_iff.mp hz
      rcases List.mem_cons.mp hz' with rfl | hz2
      · have htot : pieceLE y z = true ∨ pieceLE z y = true := by
          simpa using pieceLE_total y z
        rcases htot with h1 | h2
        · exact h1
        · exact absurd h2 hle
      · exact hy z hz2

theorem sortByLE_pairwise : ∀ l : List Piece,
    (sortByLE l).Pairwise (fun a b => pieceLE a b = true) := by
  intro l
  induction l with
  | nil => simp [sortByLE]
  | cons x xs ih => exact insertByLE_pairwise x (sortByLE xs) ih

theorem mem_binPieces {s : AllocState} {bin : Nat} {q : Piece} :
    q ∈ binPieces s bin
      ↔ q ∈ allPieces s ∧ q.is_free = true ∧ q.bin_num = (bin : Int) := by
  unfold binPieces
  rw [List.Perm.mem_iff (sortByLE_perm _), List.mem_filter]
  simp [Bool.and_eq_true, and_assoc]

theorem binPieces_sorted (s : AllocState) (bin : Nat) :
    (binPieces s bin).Pairwise (fun a b => pieceLE a b = true) :=
  sortByLE_pairwise _

theorem findSome?_range'_split {β : Type} (f : Nat → Option β) :
    ∀ (n st : Nat) (b : β), (List.range' st n).findSome? f = some b →
      ∃ j, st ≤ j ∧ j < st + n ∧ f j = some b
        ∧ ∀ k, st ≤ k → k < j → f k = none := by
  intro n
  induction n with
  | zero => intro st b h; simp [List.range'] at h
  | succ n ih =>
    intro st b h
    rw [List.range'] at h
    rw [List.findSome?_cons] at h
    cases hf : f st with
    | some v =>
      rw [hf] at h
      refine ⟨st, le_refl _, by omega, by rw [hf]; exact h, ?_⟩
      intro k hk1 hk2
      omega
    | none =>
      rw [hf] at h
      obtain ⟨j, hj1, hj2, hj3, hj4⟩ := ih (st + 1) b h
      refine ⟨j, by omega, by omega, hj3, ?_⟩
      intro k hk1 hk2
      rcases Nat.eq_or_lt_of_le hk1 with rfl | hlt
      · exact hf
      · exact hj4 k (by omega) hk2

theorem findSome?_range'_complete {β : Type} (f : Nat → Option β) (st n j : Nat)
    (h1 : st ≤ j) (h2 : j < st + n) (h3 : (f j).isSome = true) :
    ∃ b, (List.range' st n).findSome? f = some b := by
  cases hr : (List.range' st n).findSome? f with
  | some b => exact ⟨b, rfl⟩
  | none =>
    rw [List.findSome?_eq_none_iff] at hr
    have hj : j ∈ List.range' st n := by
      rw [List.mem_range']
      exact ⟨j - st, by omega, by omega⟩
    rw [hr j hj] at h3
    cases h3

theorem find?_min {α : Type} {le : α → α → Bool} {p : α → Bool} {l : List α} {x : α}
    (hrefl : ∀ a, le a a = true)
    (hs : l.Pairwise (fun a b => le a b = true)) (hf : l.find? p = some x) :
    ∀ y ∈ l, p y = true → le x y = true := by
  induction l with
  | nil => cases hf
  | cons a t ih =>
    intro y hy hpy
    by_cases hpa : p a = true
    · rw [List.find?_cons_of_pos _ hpa] at hf
      simp only [Option.some.injEq] at hf
      subst hf
      rcases List.mem_cons.mp hy with rfl | hyt
      · exact hrefl _
      · exact (List.pairwise_cons.mp hs).1 y hyt
    · rw [List.find?_cons_of_neg _ (by simpa using hpa)] at hf
      rcases List.mem_cons.mp hy with rfl | hyt
      · exact absurd hpy hpa
      · exact ih (List.pairwise_cons.mp hs).2 hf y hyt hpy

theorem binsOk_allPieces {s : AllocState} (h : BinsOk s) :
    ∀ q ∈ allPieces s, q.is_free = true → q.bin_num = (BinNum4BinSize q.size : Int) := by
  intro q hq
  unfold allPieces at hq
  rw [List.mem_flatMap] at hq
  obtain ⟨b, hb, hqb⟩ := hq
  exact h b hb q hqb

theorem piecesAligned_allPieces {s : AllocState} (h : PiecesAligned s) :
    ∀ q ∈ allPieces s, 0 < q.size ∧ q.size % kCudaAlignSize = 0 := by
  intro q hq
  unfold allPieces at hq
  rw [List.mem_flatMap] at hq
  obtain ⟨b, hb, hqb⟩ := hq
  exact h b hb q hqb

theorem choice_spec {s : AllocState} {a : Nat} {p : Piece}
    (h : findPieceChoice s a = some p) :
    p ∈ allPieces s ∧ p.is_free = true ∧ a ≤ p.size
      ∧ ∃ j, BinNum4BinSize a ≤ j ∧ j < kBinNumSize ∧ p.bin_num = (j : Int) := by
  unfold findPieceChoice at h
  obtain ⟨j, hj1, hj2, hj3, hj4⟩ := findSome?_range'_split _ _ _ _ h
  have hpmem := List.mem_of_find?_eq_some hj3
  have hple := List.find?_some hj3
  obtain ⟨hall, hfree, hbin⟩ := mem_binPieces.mp hpmem
  have hstart := binNum_le a
  refine ⟨hall, hfree, by simpa using hple, j, hj1, ?_, hbin⟩
  simp only [kBinNumSize] at *
  omega

theorem choice_minimal {s : AllocState} {a : Nat} {p : Piece} (hbins : BinsOk s)
    (h : findPieceChoice s a = some p) :
    ∀ q ∈ allPieces s, q.is_free = true → a ≤ q.size → pieceLE p q = true := by
  intro q hq hqf hqs
  unfold findPieceChoice at h
  obtain ⟨j, hj1, hj2, hj3, hj4⟩ := findSome?_range'_split _ _ _ _ h
  have hpmem := List.mem_of_find?_eq_some hj3
  have hpfit : a ≤ p.size := by simpa using List.find?_some hj3
  obtain ⟨hpall, hpf, hpbin⟩ := mem_binPieces.mp hpmem
  have hqbin : q.bin_num = (BinNum4BinSize q.size : Int) := binsOk_allPieces hbins q hq hqf
  have hqmem : q ∈ binPieces s (BinNum4BinSize q.size) := mem_binPieces.mpr ⟨hq, hqf, hqbin⟩
  have hqlow : BinNum4BinSize a ≤ BinNum4BinSize q.size := binNum_mono hqs
  have hjq : j ≤ BinNum4BinSize q.size := by
    by_contra hlt
    push_neg at hlt
    have hnone := hj4 (BinNum4BinSize q.size) hqlow hlt
    rw [List.find?_eq_none] at hnone
    exact hnone q hqmem (by simpa using hqs)
  rcases Nat.eq_or_lt_of_le hjq with heq | hlt2
  · exact find?_min pieceLE_refl (binPieces_sorted s j) hj3 q (heq ▸ hqmem)
      (by simpa using hqs)
  · have hpclass : BinNum4BinSize p.size = j := by
      have := binsOk_allPieces hbins p hpall hpf
      rw [hpbin] at this
      exact_mod_cast this.symm
    have hsize : p.size < q.size := by
      by_contra hge
      push_neg at hge
      have := binNum_mono hge
      omega
    simp [pieceLE, hsize]

theorem choice_complete {s : AllocState} {a : Nat} (hbins : BinsOk s)
    {q : Piece} (hq : q ∈ allPieces s) (hqf : q.is_free = true) (hqs : a ≤ q.size) :
    ∃ p, findPieceChoice s a = some p := by
  unfold findPieceChoice
  apply findSome?_range'_complete _ _ _ (BinNum4BinSize q.size) (binNum_mono hqs)
  · have h1 := binNum_lt q.size
    have h2 := binNum_le a
    simp only [kBinNumSize] at *
    omega
  · have hqbin := binsOk_allPieces hbins q hq hqf
    have hqmem : q ∈ binPieces s (BinNum4BinSize q.size) :=
      mem_binPieces.mpr ⟨hq, hqf, hqbin⟩
    cases hf : (binPieces s (BinNum4BinSize q.size)).find? (fun p => decide (a ≤ p.size)) with
    | some _ => simp
    | none =>
      rw [List.find?_eq_none] at hf
      exact absurd (by simpa using hqs) (hf q hqmem)

theorem allocChain_split_eq (a : Nat) (x : Piece) : ∀ (pre post : List Piece),
    (∀ q ∈ pre, q.ptr ≠ x.ptr) →
    allocChain a x.ptr (pre ++ x :: post)
      = pre ++ (if splitCond x.size a then
          [{ x with size := a, is_free := false, bin_num := kInvalidBinNum },
           { size := x.size - a, ptr := x.ptr + a, is_free := true,
             bin_num := (BinNum4BinSize (x.size - a) : Int) }]
        else [{ x with is_free := false, bin_num := kInvalidBinNum }]) ++ post := by
  intro pre
  induction pre with
  | nil =>
    intro post hpre
    simp only [List.nil_append, allocChain, if_pos rfl]
    by_cases hs : splitCond x.size a
    · rw [if_pos hs, if_pos hs]
      rfl
    · rw [if_neg hs, if_neg hs]
      rfl
  | cons q rest ih =>
    intro post hpre
    have hq : q.ptr ≠ x.ptr := hpre q (List.mem_cons_self _ _)
    simp only [List.cons_append, allocChain, if_neg hq, List.append_eq]
    rw [ih post (fun r hr => hpre r (List.mem_cons_of_mem _ hr))]

theorem allocChain_head (c : List Piece) (a tgt : Nat) :
    ∀ t ∈ (allocChain a tgt c).head?, t.is_free = true →
      ∃ q ∈ c.head?, q.is_free = true := by
  intro t ht htf
  cases c with
  | nil => simp [allocChain] at ht
  | cons q0 rest =>
    simp only [allocChain] at ht
    by_cases hq : q0.ptr = tgt
    · rw [if_pos hq] at ht
      by_cases hs : splitCond q0.size a
      · rw [if_pos hs] at ht
        simp only [List.head?_cons, Option.mem_def, Option.some.injEq] at ht
        subst ht
        cases htf
      · rw [if_neg hs] at ht
        simp only [List.head?_cons, Option.mem_def, Option.some.injEq] at ht
        subst ht
        cases htf
    · rw [if_neg hq] at ht
      simp only [List.head?_cons, Option.mem_def, Option.some.injEq] at ht
      subst ht
      exact ⟨q0, by simp, htf⟩

theorem allocChain_noAdjFree : ∀ (c : List Piece) (a tgt : Nat),
    noAdjFree c → (∀ q ∈ c, q.ptr = tgt → q.is_free = true) →
    noAdjFree (allocChain a tgt c) := by
  intro c
  induction c with
  | nil => intro a tgt h _; exact h
  | cons p rest ih =>
    intro a tgt h hfree
    have hrest : noAdjFree rest := h.tail
    simp only [allocChain]
    by_cases hp : p.ptr = tgt
    · rw [if_pos hp]
      have hpfree : p.is_free = true := hfree p (List.mem_cons_self _ _) hp
      have hheadrest : ∀ t ∈ rest.head?, t.is_free = false := by
        intro t ht
        rcases (List.Chain'.rel_head? h) ht with h1 | h2
        · rw [hpfree] at h1; cases h1
        · exact h2
      by_cases hs : splitCond p.size a
      · rw [if_pos hs]
        refine List.Chain'.cons (Or.inl rfl) (List.Chain'.cons' hrest ?_)
        intro t ht
        exact Or.inr (hheadrest t ht)
      · rw [if_neg hs]
        refine List.Chain'.cons' hrest ?_
        intro t ht
        exact Or.inl rfl
    · rw [if_neg hp]
      refine List.Chain'.cons'
        (ih a tgt hrest (fun q hq => hfree q (List.mem_cons_of_mem _ hq))) ?_
      intro t ht
      by_cases htf : t.is_free = true
      · obtain ⟨q, hq, hqf⟩ := allocChain_head rest a tgt t ht htf
        rcases (List.Chain'.rel_head? h) hq with h1 | h2
        · exact Or.inl h1
        · rw [hqf] at h2; cases h2
      · exact Or.inr (by simpa using htf)

theorem kPieceSplitThreshold_val : kPieceSplitThreshold = 134217728 := by decide

theorem splitCond_facts {ps a : Nat} (hs : splitCond ps a = true) :
    a ≤ ps ∧ (0 < a → 0 < ps - a) := by
  simp only [splitCond, Bool.or_eq_true, decide_eq_true_eq] at hs
  have hth := kPieceSplitThreshold_val
  omega

theorem allocChain_aligned : ∀ (c : List Piece) (a tgt : Nat),
    0 < a → a % kCudaAlignSize = 0 →
    (∀ q ∈ c, 0 < q.size ∧ q.size % kCudaAlignSize = 0) →
    ∀ q ∈ allocChain a tgt c, 0 < q.size ∧ q.size % kCudaAlignSize = 0 := by
  intro c
  induction c with
  | nil => intro a tgt _ _ _ q hq; simp [allocChain] at hq
  | cons p rest ih =>
    intro a tgt hapos hamod h q hq
    have hp := h p (List.mem_cons_self _ _)
    simp only [allocChain] at hq
    by_cases hptr : p.ptr = tgt
    · rw [if_pos hptr] at hq
      by_cases hs : splitCond p.size a
      · rw [if_pos hs] at hq
        obtain ⟨hle, hrem⟩ := splitCond_facts hs
        rcases List.mem_cons.mp hq with rfl | hq2
        · exact ⟨hapos, hamod⟩
        · rcases List.mem_cons.mp hq2 with rfl | hq3
          · refine ⟨hrem hapos, ?_⟩
            show (p.size - a) % kCudaAlignSize = 0
            simp only [kCudaAlignSize] at *
            omega
          · exact h q (List.mem_cons_of_mem _ hq3)
      · rw [if_neg hs] at hq
        rcases List.mem_cons.mp hq with rfl | hq2
        · exact hp
        · exact h q (List.mem_cons_of_mem _ hq2)
    · rw [if_neg hptr] at hq
      rcases List.mem_cons.mp hq with rfl | hq2
      · exact hp
      · exact ih a tgt hapos hamod (fun r hr => h r (List.mem_cons_of_mem _ hr)) q hq2

theorem allocChain_binsOk : ∀ (c : List Piece) (a tgt : Nat),
    (∀ q ∈ c, q.is_free = true → q.bin_num = (BinNum4BinSize q.size : Int)) →
    ∀ q ∈ allocChain a tgt c, q.is_free = true →
      q.bin_num = (BinNum4BinSize q.size : Int) := by
  intro c
  induction c with
  | nil => intro a tgt _ q hq; simp [allocChain] at hq
  | cons p rest ih =>
    intro a tgt h q hq hqf
    have hp := h p (List.mem_cons_self _ _)
    simp only [allocChain] at hq
    by_cases hptr : p.ptr = tgt
    · rw [if_pos hptr] at hq
      by_cases hs : splitCond p.size a
      · rw [if_pos hs] at hq
        rcases List.mem_cons.mp hq with rfl | hq2
        · cases hqf
        · rcases List.mem_cons.mp hq2 with rfl | hq3
          · rfl
          · exact h q (List.mem_cons_of_mem _ hq3) hqf
      · rw [if_neg hs] at hq
        rcases List.mem_cons.mp hq with rfl | hq2
        · cases hqf
        · exact h q (List.mem_cons_of_mem _ hq2) hqf
    · rw [if_neg hptr] at hq
      rcases List.mem_cons.mp hq with rfl | hq2
      · exact hp hqf
      · exact ih a tgt (fun r hr => h r (List.mem_cons_of_mem _ hr)) q hq2 hqf

theorem applyAllocBlocks_mem : ∀ (bs : List Block) (a tgt : Nat) (b' : Block),
    b' ∈ applyAllocBlocks a tgt bs →
    b' ∈ bs ∨ ∃ b ∈ bs, b' = { b with chain := allocChain a tgt b.chain } := by
  intro bs
  induction bs with
  | nil => intro a tgt b' h; simp [applyAllocBlocks] at h
  | cons b rest ih =>
    intro a tgt b' h
    simp only [applyAllocBlocks] at h
    by_cases hb : b.chain.any (fun p => p.ptr == tgt) = true
    · rw [if_pos hb] at h
      rcases List.mem_cons.mp h with rfl | h2
      · exact Or.inr ⟨b, List.mem_cons_self _ _, rfl⟩
      · exact Or.inl (List.mem_cons_of_mem _ h2)
    · rw [if_neg hb] at h
      rcases List.mem_cons.mp h with rfl | h2
      · exact Or.inl (List.mem_cons_self _ _)
      · rcases ih a tgt b' h2 with h3 | ⟨bb, hbb, hbe⟩
        · exact Or.inl (List.mem_cons_of_mem _ h3)
        · exact Or.inr ⟨bb, List.mem_cons_of_mem _ hbb, hbe⟩

theorem findPiece_some_spec {s : AllocState} {a r : Nat} {s' : AllocState}
    (h : FindPiece s a = some (r, s')) :
    ∃ p, findPieceChoice s a = some p ∧ r = p.ptr
      ∧ s' = { s with blocks := applyAllocBlocks a p.ptr s.blocks } := by
  unfold FindPiece at h
  cases hc : findPieceChoice s a with
  | none => rw [hc] at h; cases h
  | some p =>
    rw [hc] at h
    simp only [Option.some.injEq, Prod.mk.injEq] at h
    exact ⟨p, rfl, h.1.symm, h.2.symm⟩

theorem findPiece_noAdjFree {s : AllocState} {a r : Nat} {s' : AllocState}
    (hs : NoAdjFreeState s) (hnd : PtrsNodup s)
    (h : FindPiece s a = some (r, s')) : NoAdjFreeState s' := by
  obtain ⟨p, hc, -, hs'⟩ := findPiece_some_spec h
  obtain ⟨hall, hfree, -, -⟩ := choice_spec hc
  subst hs'
  intro b' hb'
  rcases applyAllocBlocks_mem s.blocks a p.ptr b' hb' with h1 | ⟨b, hb, rfl⟩
  · exact hs b' h1
  · refine allocChain_noAdjFree b.chain a p.ptr (hs b hb) ?_
    intro q hq hqp
    have hqall : q ∈ allPieces s := by
      unfold allPieces
      rw [List.mem_flatMap]
      exact ⟨b, hb, hq⟩
    have hqeq := List.inj_on_of_nodup_map hnd hqall hall (by rw [hqp])
    rw [hqeq]
    exact hfree

theorem findPiece_aligned {s : AllocState} {a r : Nat} {s' : AllocState}
    (hapos : 0 < a) (hamod : a % kCudaAlignSize = 0)
    (hs : PiecesAligned s) (h : FindPiece s a = some (r, s')) : PiecesAligned s' := by
  obtain ⟨p, hc, -, hs'⟩ := findPiece_some_spec h
  subst hs'
  intro b' hb'
  rcases applyAllocBlocks_mem s.blocks a p.ptr b' hb' with h1 | ⟨b, hb, rfl⟩
  · exact hs b' h1
  · exact allocChain_aligned b.chain a p.ptr hapos hamod (hs b hb)

theorem findPiece_binsOk {s : AllocState} {a r : Nat} {s' : AllocState}
    (hs : BinsOk s) (h : FindPiece s a = some (r, s')) : BinsOk s' := by
  obtain ⟨p, hc, -, hs'⟩ := findPiece_some_spec h
  subst hs'
  intro b' hb'
  rcases applyAllocBlocks_mem s.blocks a p.ptr b' hb' with h1 | ⟨b, hb, rfl⟩
  · exact hs b' h1
  · exact allocChain_binsOk b.chain a p.ptr (hs b hb)

/-! ### Growth and DoAllocate machinery -/

theorem extend_true_spec {s : AllocState} {a m : Nat} {s' : AllocState}
    (h : AllocateBlockToExtendTotalMem s a m = (true, s')) :
    m ≠ 0 ∧ ∃ fin : Nat, 0 < fin ∧ fin % kCudaAlignSize = 0 ∧ a ≤ fin
      ∧ s'.total_memory_bytes = s.total_memory_bytes + fin
      ∧ s'.blocks = s.blocks
          ++ [{ size := fin, ptr := m,
                chain := [{ size := fin, ptr := m, is_free := true,
                            bin_num := (BinNum4BinSize fin : Int) }] }] := by
  have hdvd : (kCudaAlignSize : Nat)
      ∣ (if a < 1048576 then 2097152
         else if a < 10485760 then (20971520 : Nat)
         else RoundUp a 2097152) := by
    split_ifs with h1 h2
    · norm_num [kCudaAlignSize]
    · norm_num [kCudaAlignSize]
    · exact Dvd.dvd.trans (by norm_num [kCudaAlignSize]) (dvd_roundUp a 2097152)
  have hfinal : MemAlignedBytes
      (if a < 1048576 then 2097152
       else if a < 10485760 then (20971520 : Nat)
       else RoundUp a 2097152) kCudaAlignSize
      = (if a < 1048576 then 2097152
         else if a < 10485760 then (20971520 : Nat)
         else RoundUp a 2097152) := by
    unfold MemAlignedBytes
    exact roundUp_eq_self (by norm_num [kCudaAlignSize]) hdvd
  have hta : a ≤ (if a < 1048576 then 2097152
       else if a < 10485760 then (20971520 : Nat)
       else RoundUp a 2097152) := by
    split_ifs with h1 h2
    · omega
    · omega
    · exact le_roundUp a (by norm_num)
  have ht2 : 2097152 ≤ (if a < 1048576 then 2097152
       else if a < 10485760 then (20971520 : Nat)
       else RoundUp a 2097152) := by
    split_ifs with h1 h2
    · omega
    · omega
    · have := le_roundUp a (show 0 < 2097152 by norm_num)
      omega
  simp only [AllocateBlockToExtendTotalMem, hfinal] at h
  rw [if_neg (by omega)] at h
  by_cases hm : m = 0
  · rw [if_pos hm] at h
    simp at h
  · rw [if_neg hm] at h
    simp only [Prod.mk.injEq, true_and] at h
    subst h
    exact ⟨hm, _, by omega, Nat.mod_eq_zero_of_dvd hdvd, hta, rfl, rfl⟩

theorem extend_false_spec {s : AllocState} {a m : Nat} {s' : AllocState}
    (h : AllocateBlockToExtendTotalMem s a m = (false, s')) : s' = s := by
  simp only [AllocateBlockToExtendTotalMem] at h
  split_ifs at h <;> simp_all

theorem extend_noAdjFree {s : AllocState} {a m : Nat} {s' : AllocState}
    (hs : NoAdjFreeState s)
    (h : AllocateBlockToExtendTotalMem s a m = (true, s')) : NoAdjFreeState s' := by
  obtain ⟨-, fin, -, -, -, -, hblocks⟩ := extend_true_spec h
  intro b hb
  rw [hblocks] at hb
  rcases List.mem_append.mp hb with h1 | h2
  · exact hs b h1
  · simp only [List.mem_singleton] at h2
    subst h2
    exact List.chain'_singleton _

theorem extend_aligned {s : AllocState} {a m : Nat} {s' : AllocState}
    (hs : PiecesAligned s)
    (h : AllocateBlockToExtendTotalMem s a m = (true, s')) : PiecesAligned s' := by
  obtain ⟨-, fin, hpos, hmod, -, -, hblocks⟩ := extend_true_spec h
  intro b hb
  rw [hblocks] at hb
  rcases List.mem_append.mp hb with h1 | h2
  · exact hs b h1
  · simp only [List.mem_singleton] at h2
    subst h2
    intro q hq
    simp only [List.mem_singleton] at hq
    subst hq
    exact ⟨hpos, hmod⟩

theorem extend_binsOk {s : AllocState} {a m : Nat} {s' : AllocState}
    (hs : BinsOk s)
    (h : AllocateBlockToExtendTotalMem s a m = (true, s')) : BinsOk s' := by
  obtain ⟨-, fin, -, -, -, -, hblocks⟩ := extend_true_spec h
  intro b hb
  rw [hblocks] at hb
  rcases List.mem_append.mp hb with h1 | h2
  · exact hs b h1
  · simp only [List.mem_singleton] at h2
    subst h2
    intro q hq
    simp only [List.mem_singleton] at hq
    subst hq
    intro _
    rfl

theorem extend_ptrsNodup {s : AllocState} {a m : Nat} {s' : AllocState}
    (hnd : PtrsNodup s) (hm : ¬ ∃ q ∈ allPieces s, q.ptr = m)
    (h : AllocateBlockToExtendTotalMem s a m = (true, s')) : PtrsNodup s' := by
  obtain ⟨-, fin, -, -, -, -, hblocks⟩ := extend_true_spec h
  unfold PtrsNodup allPieces at *
  rw [hblocks, List.flatMap_append]
  rw [List.map_append, List.nodup_append]
  refine ⟨hnd, by simp, ?_⟩
  intro t ht ht2
  simp only [List.flatMap_cons, List.flatMap_nil, List.append_nil, List.map_cons,
    List.map_nil, List.mem_singleton] at ht2
  subst ht2
  rcases List.mem_map.mp ht with ⟨q, hq, hqp⟩
  exact hm ⟨q, hq, hqp⟩

theorem aligned_size_facts {size : Nat} (h : size ≠ 0) :
    0 < MemAlignedBytes size kCudaAlignSize
      ∧ MemAlignedBytes size kCudaAlignSize % kCudaAlignSize = 0
      ∧ size ≤ MemAlignedBytes size kCudaAlignSize := by
  have hle := le_roundUp size (show 0 < kCudaAlignSize by norm_num [kCudaAlignSize])
  unfold MemAlignedBytes
  exact ⟨by omega, Nat.mod_eq_zero_of_dvd (dvd_roundUp _ _), hle⟩

theorem doAllocate_cases {s : AllocState} {size m : Nat} {p : Option Nat} {s' : AllocState}
    (hsz : ¬ size = 0)
    (h : DoAllocate s size m = .success p s') :
    (∃ r, p = some r ∧ FindPiece s (MemAlignedBytes size kCudaAlignSize) = some (r, s'))
    ∨ (∃ s₁ r, FindPiece s (MemAlignedBytes size kCudaAlignSize) = none
        ∧ AllocateBlockToExtendTotalMem s (MemAlignedBytes size kCudaAlignSize) m = (true, s₁)
        ∧ FindPiece s₁ (MemAlignedBytes size kCudaAlignSize) = some (r, s')
        ∧ p = some r) := by
  simp only [DoAllocate, if_neg hsz] at h
  split at h
  · rename_i rs r s1 hf1
    simp only [AllocResult.success.injEq] at h
    obtain ⟨hp, hs1⟩ := h
    subst hs1
    exact Or.inl ⟨r, hp.symm, hf1⟩
  · rename_i hf1
    split at h
    · rename_i rs2 s1 hext
      split at h
      · rename_i rs3 r2 s2 hf2
        simp only [AllocResult.success.injEq] at h
        obtain ⟨hp, hs2⟩ := h
        subst hs2
        exact Or.inr ⟨s1, r2, hf1, hext, hf2, hp.symm⟩
      · cases h
    · cases h

theorem doAllocate_zero_state {s : AllocState} {m : Nat} {p : Option Nat} {s' : AllocState}
    (h : DoAllocate s 0 m = .success p s') : s' = s := by
  unfold DoAllocate at h
  rw [if_pos rfl] at h
  simp only [AllocResult.success.injEq] at h
  exact h.2.symm

theorem doAllocate_noAdjFree {s : AllocState} {size m : Nat} {p : Option Nat}
    {s' : AllocState}
    (hs : NoAdjFreeState s) (hnd : PtrsNodup s)
    (hm : m = 0 ∨ ¬ ∃ q ∈ allPieces s, q.ptr = m)
    (h : DoAllocate s size m = .success p s') : NoAdjFreeState s' := by
  by_cases hsz : size = 0
  · subst hsz
    rw [doAllocate_zero_state h]
    exact hs
  · rcases doAllocate_cases hsz h with ⟨r, -, hf⟩ | ⟨s1, r, -, hext, hf2, -⟩
    · exact findPiece_noAdjFree hs hnd hf
    · have hm' : ¬ ∃ q ∈ allPieces s, q.ptr = m := by
        rcases hm with rfl | hm'
        · exact absurd rfl (extend_true_spec hext).1
        · exact hm'
      exact findPiece_noAdjFree (extend_noAdjFree hs hext)
        (extend_ptrsNodup hnd hm' hext) hf2

theorem doAllocate_aligned {s : AllocState} {size m : Nat} {p : Option Nat}
    {s' : AllocState}
    (hs : PiecesAligned s) (h : DoAllocate s size m = .success p s') :
    PiecesAligned s' := by
  by_cases hsz : size = 0
  · subst hsz
    rw [doAllocate_zero_state h]
    exact hs
  · obtain ⟨hap, ham, -⟩ := aligned_size_facts hsz
    rcases doAllocate_cases hsz h with ⟨r, -, hf⟩ | ⟨s1, r, -, hext, hf2, -⟩
    · exact findPiece_aligned hap ham hs hf
    · exact findPiece_aligned hap ham (extend_aligned hs hext) hf2

theorem doAllocate_binsOk {s : AllocState} {size m : Nat} {p : Option Nat}
    {s' : AllocState}
    (hs : BinsOk s) (h : DoAllocate s size m = .success p s') : BinsOk s' := by
  by_cases hsz : size = 0
  · subst hsz
    rw [doAllocate_zero_state h]
    exact hs
  · rcases doAllocate_cases hsz h with ⟨r, -, hf⟩ | ⟨s1, r, -, hext, hf2, -⟩
    · exact findPiece_binsOk hs hf
    · exact findPiece_binsOk (extend_binsOk hs hext) hf2

/-- C3: after every `Deallocate` (and likewise after every `DoAllocate` and
after the reclamation pass) no two physically adjacent Pieces of any Block's
chain are both free: `Deallocate` eagerly merges the freed Piece with a free
physical next neighbour and then with a free physical prev neighbour, the
lower-address Piece surviving each merge — so the surviving free Piece starts
at or below the freed address and still covers it — and the single survivor
is filed into the Bin matching its final size
(`bin_num = BinNum4BinSize(size)`). -/
theorem deallocate_coalesces_eagerly :
    (∀ (s : AllocState) (ptr : Nat) (s' : AllocState),
       NoAdjFreeState s → BlocksTiled s → PiecesAligned s → ptr ≠ 0 →
       Deallocate s ptr = .ok s' →
       NoAdjFreeState s'
       ∧ ∃ b' ∈ s'.blocks, ∃ z ∈ b'.chain, z.is_free = true ∧ z.ptr ≤ ptr
           ∧ ptr < z.ptr + z.size ∧ z.bin_num = (BinNum4BinSize z.size : Int))
    ∧ (∀ (s : AllocState) (size m : Nat) (p : Option Nat) (s' : AllocState),
       NoAdjFreeState s → PtrsNodup s → (m = 0 ∨ ¬ ∃ q ∈ allPieces s, q.ptr = m) →
       DoAllocate s size m = .success p s' → NoAdjFreeState s')
    ∧ (∀ s : AllocState, NoAdjFreeState s →
       NoAdjFreeState (DeallocateFreeBlockForGarbageCollection s).2) := by
  refine ⟨?_, ?_, ?_⟩
  · intro s ptr s' hnadj htiled halign hptr h
    obtain ⟨-, B1, b, B2, pre, x, post, hbs, hc, hxp, hxf, hbs'⟩ :=
      deallocate_ok_spec hptr h
    have hbmem : b ∈ s.blocks := by
      rw [hbs]; exact List.mem_append_right _ (List.mem_cons_self _ _)
    have hchain : noAdjFree (pre ++ x :: post) := by
      rw [← hc]; exact hnadj b hbmem
    have hxmem : x ∈ b.chain := by
      rw [hc]; exact List.mem_append_right _ (List.mem_cons_self _ _)
    have hxpos : 0 < x.size := (halign b hbmem x hxmem).1
    have hpremem : ∀ l ∈ pre.getLast?, l ∈ b.chain := by
      intro l hl
      have hdl := List.dropLast_append_getLast? l hl
      rw [hc]
      apply List.mem_append_left
      rw [← hdl]
      exact List.mem_append_right _ (List.mem_cons_self _ _)
    have htile : ∀ l ∈ pre.getLast?, l.ptr + l.size = x.ptr := by
      intro l hl
      have hdl := List.dropLast_append_getLast? l hl
      have hchain2 : b.chain = pre.dropLast ++ l :: x :: post := by
        rw [hc]
        conv_lhs => rw [← hdl]
        rw [List.append_assoc, List.singleton_append]
      have htl := htiled b hbmem
      rw [hchain2] at htl
      exact tilesFromB_adjacent _ _ _ _ _ htl
    have hpos1 : ∀ l ∈ pre.getLast?, 0 < l.size := fun l hl =>
      (halign b hbmem l (hpremem l hl)).1
    constructor
    · intro b' hb'
      rw [hbs'] at hb'
      rcases List.mem_append.mp hb' with h1 | h2
      · exact hnadj b' (by rw [hbs]; exact List.mem_append_left _ h1)
      · rcases List.mem_cons.mp h2 with rfl | h3
        · exact deallocCore_noAdjFree hchain
        · exact hnadj b'
            (by rw [hbs]; exact List.mem_append_right _ (List.mem_cons_of_mem _ h3))
    · obtain ⟨z, hz, hzf, hzle, hzlt, hzbin⟩ := deallocCore_survivor hxpos htile hpos1
      refine ⟨{ b with chain := deallocCore pre x post },
        by rw [hbs']; exact List.mem_append_right _ (List.mem_cons_self _ _),
        z, hz, hzf, ?_, ?_, hzbin⟩
      · rw [← hxp]; exact hzle
      · rw [← hxp]; exact hzlt
  · intro s size m p s' h1 h2 h3 h4
    exact doAllocate_noAdjFree h1 h2 h3 h4
  · intro s hnadj b hb
    simp only [DeallocateFreeBlockForGarbageCollection] at hb
    by_cases hf : 0 < ((s.blocks.filter blockIdle).map (·.size)).sum
    · rw [if_pos hf] at hb
      exact hnadj b (List.mem_filter.mp hb).1
    · rw [if_neg hf] at hb
      exact hnadj b hb

def exSplitS : AllocState :=
  { total_memory_bytes := 2097152,
    blocks := [{ size := 2097152, ptr := 4096,
                 chain := [{ size := 1024, ptr := 4096, is_free := false, bin_num := -1 },
                           { size := 2096128, ptr := 5120, is_free := true,
                             bin_num := 11 }] }] }

theorem deallocate_coalesces_eagerly_witness :
    (NoAdjFreeState growthExS'
      ∧ ∃ b' ∈ growthExS'.blocks, ∃ z ∈ b'.chain, z.is_free = true ∧ z.ptr ≤ 4096
          ∧ 4096 < z.ptr + z.size ∧ z.bin_num = (BinNum4BinSize z.size : Int))
    ∧ NoAdjFreeState exSplitS
    ∧ NoAdjFreeState (DeallocateFreeBlockForGarbageCollection growthExS').2 :=
  ⟨deallocate_coalesces_eagerly.1 exSplitS 4096 growthExS' (by decide) (by decide)
      (by unfold PiecesAligned; decide) (by decide) (by decide),
   deallocate_coalesces_eagerly.2.1 growthExS' 1000 0 (some 4096) exSplitS (by decide)
      (by unfold PtrsNodup; decide) (Or.inl rfl) (by decide),
   deallocate_coalesces_eagerly.2.2 growthExS' (by decide)⟩

/-- C10: every live Piece has a size that is a positive multiple of the
512-byte alignment unit, and this is preserved by every public operation:
`DoAllocate` (which rounds the request up to the alignment unit — last
conjunct — and splits into two aligned parts), `Deallocate` (merging sums two
aligned multiples) and the reclamation pass; growth sizes are aligned. -/
theorem live_piece_sizes_aligned :
    (∀ (s : AllocState) (size m : Nat) (p : Option Nat) (s' : AllocState),
       PiecesAligned s → DoAllocate s size m = .success p s' → PiecesAligned s')
    ∧ (∀ (s : AllocState) (ptr : Nat) (s' : AllocState),
       PiecesAligned s → Deallocate s ptr = .ok s' → PiecesAligned s')
    ∧ (∀ s : AllocState, PiecesAligned s →
       PiecesAligned (DeallocateFreeBlockForGarbageCollection s).2)
    ∧ (∀ n : Nat, 0 < n →
       0 < MemAlignedBytes n kCudaAlignSize
       ∧ MemAlignedBytes n kCudaAlignSize % kCudaAlignSize = 0
       ∧ n ≤ MemAlignedBytes n kCudaAlignSize) := by
  refine ⟨?_, ?_, ?_, ?_⟩
  · intro s size m p s' hs h
    exact doAllocate_aligned hs h
  · intro s ptr s' hs h
    by_cases hptr : ptr = 0
    · unfold Deallocate at h
      rw [if_pos hptr] at h
      simp only [DeallocResult.ok.injEq] at h
      rw [← h]
      exact hs
    · obtain ⟨-, B1, b, B2, pre, x, post, hbs, hc, hxp, hxf, hbs'⟩ :=
        deallocate_ok_spec hptr h
      have hbmem : b ∈ s.blocks := by
        rw [hbs]; exact List.mem_append_right _ (List.mem_cons_self _ _)
      intro b' hb'
      rw [hbs'] at hb'
      rcases List.mem_append.mp hb' with h1 | h2
      · exact hs b' (by rw [hbs]; exact List.mem_append_left _ h1)
      · rcases List.mem_cons.mp h2 with rfl | h3
        · have hall : ∀ q ∈ pre ++ x :: post, 0 < q.size ∧ q.size % kCudaAlignSize = 0 := by
            rw [← hc]; exact hs b hbmem
          exact deallocCore_aligned hall
        · exact hs b'
            (by rw [hbs]; exact List.mem_append_right _ (List.mem_cons_of_mem _ h3))
  · intro s hs b hb
    simp only [DeallocateFreeBlockForGarbageCollection] at hb
    by_cases hf : 0 < ((s.blocks.filter blockIdle).map (·.size)).sum
    · rw [if_pos hf] at hb
      exact hs b (List.mem_filter.mp hb).1
    · rw [if_neg hf] at hb
      exact hs b hb
  · intro n hn
    obtain ⟨h1, h2, h3⟩ := aligned_size_facts (show n ≠ 0 by omega)
    exact ⟨h1, h2, h3⟩

theorem live_piece_sizes_aligned_witness :
    PiecesAligned exSplitS ∧ PiecesAligned growthExS'
    ∧ PiecesAligned (DeallocateFreeBlockForGarbageCollection growthExS').2
    ∧ (0 < MemAlignedBytes 1000 kCudaAlignSize
       ∧ MemAlignedBytes 1000 kCudaAlignSize % kCudaAlignSize = 0
       ∧ 1000 ≤ MemAlignedBytes 1000 kCudaAlignSize) :=
  ⟨live_piece_sizes_aligned.1 growthExS' 1000 0 (some 4096) exSplitS
      (by unfold PiecesAligned; decide) (by decide),
   live_piece_sizes_aligned.2.1 exSplitS 4096 growthExS'
      (by unfold PiecesAligned; decide) (by decide),
   live_piece_sizes_aligned.2.2.1 growthExS' (by unfold PiecesAligned; decide),
   live_piece_sizes_aligned.2.2.2 1000 (by norm_num)⟩

/-- C5: the free-Piece search starts at bin `BinNum4BinSize(aligned_size)`
and scans classes upward, inspecting each Bin's free Pieces in
(size ascending, address ascending) order, returning the scan-first fitting
Piece — which is therefore `pieceLE`-minimal among all fitting free Pieces;
correspondingly every free Piece is filed under the bin of its own size
(never a lower class) — a property preserved by every public operation — so
every fitting free Piece is findable by that scan (completeness). -/
theorem findPiece_scan_order :
    (∀ (s : AllocState) (a : Nat) (p : Piece), BinsOk s →
       findPieceChoice s a = some p →
       p.is_free = true ∧ a ≤ p.size
       ∧ p.bin_num = (BinNum4BinSize p.size : Int)
       ∧ BinNum4BinSize a ≤ BinNum4BinSize p.size
       ∧ ∀ q ∈ allPieces s, q.is_free = true → a ≤ q.size → pieceLE p q = true)
    ∧ (∀ (s : AllocState) (a : Nat), BinsOk s →
       (∃ q ∈ allPieces s, q.is_free = true ∧ a ≤ q.size) →
       ∃ p, findPieceChoice s a = some p)
    ∧ (∀ (s : AllocState) (size m : Nat) (p : Option Nat) (s' : AllocState),
       BinsOk s → DoAllocate s size m = .success p s' → BinsOk s')
    ∧ (∀ (s : AllocState) (ptr : Nat) (s' : AllocState),
       BinsOk s → Deallocate s ptr = .ok s' → BinsOk s')
    ∧ (∀ s : AllocState, BinsOk s →
       BinsOk (DeallocateFreeBlockForGarbageCollection s).2) := by
  refine ⟨?_, ?_, ?_, ?_, ?_⟩
  · intro s a p hbins hch
    obtain ⟨hall, hfree, hfit, -⟩ := choice_spec hch
    exact ⟨hfree, hfit, binsOk_allPieces hbins p hall hfree, binNum_mono hfit,
      choice_minimal hbins hch⟩
  · intro s a hbins hex
    obtain ⟨q, hq, hqf, hqs⟩ := hex
    exact choice_complete hbins hq hqf hqs
  · intro s size m p s' hs h
    exact doAllocate_binsOk hs h
  · intro s ptr s' hs h
    by_cases hptr : ptr = 0
    · unfold Deallocate at h
      rw [if_pos hptr] at h
      simp only [DeallocResult.ok.injEq] at h
      rw [← h]
      exact hs
    · obtain ⟨-, B1, b, B2, pre, x, post, hbs, hc, hxp, hxf, hbs'⟩ :=
        deallocate_ok_spec hptr h
      have hbmem : b ∈ s.blocks := by
        rw [hbs]; exact List.mem_append_right _ (List.mem_cons_self _ _)
      intro b' hb'
      rw [hbs'] at hb'
      rcases List.mem_append.mp hb' with h1 | h2
      · exact hs b' (by rw [hbs]; exact List.mem_append_left _ h1)
      · rcases List.mem_cons.mp h2 with rfl | h3
        · have hall : ∀ q ∈ pre ++ x :: post, q.is_free = true →
              q.bin_num = (BinNum4BinSize q.size : Int) := by
            rw [← hc]; exact hs b hbmem
          exact deallocCore_binsOk hall
        · exact hs b'
            (by rw [hbs]; exact List.mem_append_right _ (List.mem_cons_of_mem _ h3))
  · intro s hs b hb
    simp only [DeallocateFreeBlockForGarbageCollection] at hb
    by_cases hf : 0 < ((s.blocks.filter blockIdle).map (·.size)).sum
    · rw [if_pos hf] at hb
      exact hs b (List.mem_filter.mp hb).1
    · rw [if_neg hf] at hb
      exact hs b hb

def exFreePiece : Piece := { size := 2096128, ptr := 5120, is_free := true, bin_num := 11 }

theorem findPiece_scan_order_witness :
    (exFreePiece.is_free = true ∧ 1024 ≤ exFreePiece.size
      ∧ exFreePiece.bin_num = (BinNum4BinSize exFreePiece.size : Int)
      ∧ BinNum4BinSize 1024 ≤ BinNum4BinSize exFreePiece.size
      ∧ ∀ q ∈ allPieces exSplitS, q.is_free = true → 1024 ≤ q.size →
          pieceLE exFreePiece q = true)
    ∧ (∃ p, findPieceChoice exSplitS 1024 = some p)
    ∧ BinsOk exSplitS ∧ BinsOk growthExS'
    ∧ BinsOk (DeallocateFreeBlockForGarbageCollection growthExS').2 :=
  ⟨findPiece_scan_order.1 exSplitS 1024 exFreePiece (by decide) (by decide),
   findPiece_scan_order.2.1 exSplitS 1024 (by decide)
     ⟨exFreePiece, by decide, by decide, by decide⟩,
   findPiece_scan_order.2.2.1 growthExS' 1000 0 (some 4096) exSplitS (by decide) (by decide),
   findPiece_scan_order.2.2.2.1 exSplitS 4096 growthExS' (by decide) (by decide),
   findPiece_scan_order.2.2.2.2 growthExS' (by decide)⟩

/-- C6: the chosen free Piece (which always satisfies
`aligned_size ≤ size`) is split iff the leftover `size - aligned_size` is at
least `aligned_size` or at least the absolute threshold
`kPieceSplitThreshold = 128 MiB`; on a split the chosen Piece shrinks to
exactly `aligned_size`, and a new free Piece covering the remainder is
spliced into the physical chain immediately after it, classified into the
bin of its size and (being part of a chain) registered in the derived
address map; otherwise the Piece is handed out whole, only its
free/bin-membership fields changing. -/
theorem split_policy :
    kPieceSplitThreshold = 134217728
    ∧ ∀ (a : Nat) (x : Piece) (pre post : List Piece),
        (∀ q ∈ pre, q.ptr ≠ x.ptr) → a ≤ x.size →
        (splitCond x.size a = true
          ↔ (a ≤ x.size - a ∨ kPieceSplitThreshold ≤ x.size - a))
        ∧ allocChain a x.ptr (pre ++ x :: post)
            = pre ++ (if splitCond x.size a then
                [{ x with size := a, is_free := false, bin_num := kInvalidBinNum },
                 { size := x.size - a, ptr := x.ptr + a, is_free := true,
                   bin_num := (BinNum4BinSize (x.size - a) : Int) }]
              else [{ x with is_free := false, bin_num := kInvalidBinNum }]) ++ post := by
  refine ⟨kPieceSplitThreshold_val, ?_⟩
  intro a x pre post hpre hax
  refine ⟨?_, allocChain_split_eq a x pre post hpre⟩
  simp only [splitCond, Bool.or_eq_true, decide_eq_true_eq]
  omega

def exPieceX : Piece := { size := 2048, ptr := 4096, is_free := true, bin_num := 2 }

theorem split_policy_witness :
    (splitCond exPieceX.size 512 = true
      ↔ (512 ≤ exPieceX.size - 512 ∨ kPieceSplitThreshold ≤ exPieceX.size - 512))
    ∧ allocChain 512 exPieceX.ptr ([] ++ exPieceX :: [])
        = [] ++ (if splitCond exPieceX.size 512 then
            [{ exPieceX with size := 512, is_free := false, bin_num := kInvalidBinNum },
             { size := exPieceX.size - 512, ptr := exPieceX.ptr + 512, is_free := true,
               bin_num := (BinNum4BinSize (exPieceX.size - 512) : Int) }]
          else [{ exPieceX with is_free := false, bin_num := kInvalidBinNum }]) ++ [] :=
  split_policy.2 512 exPieceX [] [] (by simp) (by decide)

theorem doAllocate_miss_growth_some {s : AllocState} {size m r : Nat}
    {s1 s'' : AllocState} (hsz : ¬ size = 0)
    (hmiss : FindPiece s (MemAlignedBytes size kCudaAlignSize) = none)
    (hext : AllocateBlockToExtendTotalMem s (MemAlignedBytes size kCudaAlignSize) m
        = (true, s1))
    (hf2 : FindPiece s1 (MemAlignedBytes size kCudaAlignSize) = some (r, s'')) :
    DoAllocate s size m = .success (some r) s'' := by
  simp only [DoAllocate, if_neg hsz, hmiss, hext, hf2]

theorem doAllocate_miss_growth_none {s : AllocState} {size m : Nat}
    {s1 : AllocState} (hsz : ¬ size = 0)
    (hmiss : FindPiece s (MemAlignedBytes size kCudaAlignSize) = none)
    (hext : AllocateBlockToExtendTotalMem s (MemAlignedBytes size kCudaAlignSize) m
        = (true, s1))
    (hf2 : FindPiece s1 (MemAlignedBytes size kCudaAlignSize) = none) :
    DoAllocate s size m = .oom := by
  simp only [DoAllocate, if_neg hsz, hmiss, hext, hf2]

theorem doAllocate_miss_nogrowth {s : AllocState} {size m : Nat}
    {s1 : AllocState} (hsz : ¬ size = 0)
    (hmiss : FindPiece s (MemAlignedBytes size kCudaAlignSize) = none)
    (hext : AllocateBlockToExtendTotalMem s (MemAlignedBytes size kCudaAlignSize) m
        = (false, s1)) :
    DoAllocate s size m = .oom := by
  simp only [DoAllocate, if_neg hsz, hmiss, hext]

/-- C2: on a miss (no bin yields a fitting free Piece) `DoAllocate` performs
at most one growth step — a single new Block registered as one free Piece
spanning the whole substrate allocation, whose size covers the aligned
request — and retries the bin search exactly once: if the retry finds a
Piece the call succeeds with it, if the retry misses the call fails hard
with out-of-memory, and if growth itself fails (the only cause being the
substrate) the call fails hard with out-of-memory immediately; it is never
silently retried further. -/
theorem allocate_one_growth_retry_then_oom :
    ∀ (s : AllocState) (size m : Nat), 0 < size →
      FindPiece s (MemAlignedBytes size kCudaAlignSize) = none →
      (∀ s1 : AllocState,
        AllocateBlockToExtendTotalMem s (MemAlignedBytes size kCudaAlignSize) m
            = (true, s1) →
        (∃ b : Block, s1.blocks = s.blocks ++ [b]
          ∧ b.chain = [{ size := b.size, ptr := b.ptr, is_free := true,
                         bin_num := (BinNum4BinSize b.size : Int) }]
          ∧ MemAlignedBytes size kCudaAlignSize ≤ b.size)
        ∧ (∀ (r : Nat) (s'' : AllocState),
            FindPiece s1 (MemAlignedBytes size kCudaAlignSize) = some (r, s'') →
            DoAllocate s size m = .success (some r) s'')
        ∧ (FindPiece s1 (MemAlignedBytes size kCudaAlignSize) = none →
            DoAllocate s size m = .oom))
      ∧ (∀ s1 : AllocState,
          AllocateBlockToExtendTotalMem s (MemAlignedBytes size kCudaAlignSize) m
              = (false, s1) →
          s1 = s ∧ DoAllocate s size m = .oom) := by
  intro s size m hsz hmiss
  constructor
  · intro s1 hext
    refine ⟨?_, ?_, ?_⟩
    · obtain ⟨-, fin, -, -, hafin, -, hblocks⟩ := extend_true_spec hext
      exact ⟨_, hblocks, rfl, hafin⟩
    · intro r s'' hf2
      exact doAllocate_miss_growth_some (by omega) hmiss hext hf2
    · intro hf2
      exact doAllocate_miss_growth_none (by omega) hmiss hext hf2
  · intro s1 hext
    exact ⟨extend_false_spec hext, doAllocate_miss_nogrowth (by omega) hmiss hext⟩

theorem allocate_one_growth_retry_then_oom_witness :
    ((∃ b : Block, growthExS'.blocks = growthExS.blocks ++ [b]
        ∧ b.chain = [{ size := b.size, ptr := b.ptr, is_free := true,
                       bin_num := (BinNum4BinSize b.size : Int) }]
        ∧ MemAlignedBytes 1000 kCudaAlignSize ≤ b.size)
      ∧ DoAllocate growthExS 1000 4096 = .success (some 4096) exSplitS)
    ∧ (growthExS = growthExS ∧ DoAllocate growthExS 1000 0 = AllocResult.oom) := by
  have h1 := (allocate_one_growth_retry_then_oom growthExS 1000 4096 (by norm_num)
      (by decide)).1 growthExS' (by decide)
  have h2 := (allocate_one_growth_retry_then_oom growthExS 1000 0 (by norm_num)
      (by decide)).2 growthExS (by decide)
  exact ⟨⟨h1.1, h1.2.1 4096 exSplitS (by decide)⟩, h2⟩
